import Mathlib

/-!
Verification of the comparison engine of the `llm_output_reconciler`
repository: the word-level, line-level and JSON-structural diff algorithms
together with the JSON normalization layer (`json-utils` and the final
revision of `diff`, the one that scores valid JSON pairs by pure structural
similarity).

Modelling conventions for the shallow embedding:
* JSON numbers are modelled as arbitrary-precision integers (the integer
  fragment of the JSON grammar); all scores are exact rationals, so IEEE
  float arithmetic is abstracted to `Rat` (every score in the engine is a
  small dyadic/rational value).
* A numeric result field that the code can set to JS `NaN` is modelled as an
  `Option`, with `none` standing for `NaN`.
* `JSON.parse` / `JSON.stringify` are modelled by an executable parser and
  printer for this fragment; `JSON.parse` error messages (which are
  engine-specific text) are abstracted to the fallback message the source
  itself uses.
* `String.prototype.localeCompare` is modelled as code-point lexicographic
  comparison, and `Array.prototype.sort` as a stable sort with the given
  comparator, matching ECMAScript's stable-sort requirement.
* JS property order of integer-like keys is abstracted away: objects are
  association lists in insertion order.
-/

set_option maxHeartbeats 1000000

attribute [local semireducible] Rat.add Rat.sub Rat.mul Rat.inv Rat.ofScientific

namespace Reconciler

/-! ### Character classes, trimming and tokenizing (JS string primitives) -/

/-- The whitespace class used by JS `trim` and the regex class `\s`
    (restricted to its ASCII members). -/
def jsWs (c : Char) : Bool :=
  c = (' ') || c = ('\t') || c = ('\n') || c = ('\r') || c = ('\x0b') || c = ('\x0c')

/-- The whitespace accepted between tokens by `JSON.parse`. -/
def jsonWs (c : Char) : Bool :=
  c = (' ') || c = ('\t') || c = ('\n') || c = ('\r')

def decDigit (c : Char) : Bool := ('0') ≤ c && c ≤ ('9')

def dropTrailingWs (cs : List Char) : List Char :=
  (cs.reverse.dropWhile jsWs).reverse

/-- JS `String.prototype.trim` (on the modelled whitespace class). -/
def jsTrim (s : String) : String :=
  ⟨dropTrailingWs (s.data.dropWhile jsWs)⟩

/-! ### The JSON value tree -/

inductive Json where
  | null
  | bool (b : Bool)
  | num (n : Int)
  | str (s : String)
  | arr (elems : List Json)
  | obj (members : List (String × Json))

mutual
def jsonSize : Json → Nat
  | .null => 1
  | .bool _ => 1
  | .num _ => 1
  | .str _ => 1
  | .arr es => 1 + jsonSizeL es
  | .obj ms => 1 + jsonSizeM ms
def jsonSizeL : List Json → Nat
  | [] => 0
  | e :: es => jsonSize e + jsonSizeL es + 1
def jsonSizeM : List (String × Json) → Nat
  | [] => 0
  | m :: ms => jsonSize m.2 + jsonSizeM ms + 1
end

mutual
/-- Well-formedness of a tree as produced by `JSON.parse`: member keys of
    every object are distinct. -/
def wfJson : Json → Bool
  | .arr es => wfJsonL es
  | .obj ms => decide (ms.map Prod.fst).Nodup && wfJsonM ms
  | _ => true
def wfJsonL : List Json → Bool
  | [] => true
  | e :: es => wfJson e && wfJsonL es
def wfJsonM : List (String × Json) → Bool
  | [] => true
  | m :: ms => wfJson m.2 && wfJsonM ms
end

/-! ### `JSON.stringify(v, null, 2)` : the pretty printer -/

def hexLower (n : Nat) : Char :=
  if n < 10 then Char.ofNat (48 + n) else Char.ofNat (87 + n)

/-- One character of a JSON string body, escaped as `JSON.stringify` does. -/
def escJsonChar (c : Char) : List Char :=
  if c = ('"') then ['\\', '"']
  else if c = ('\\') then ['\\', '\\']
  else if c = ('\x08') then ['\\', 'b']
  else if c = ('\x0c') then ['\\', 'f']
  else if c = ('\n') then ['\\', 'n']
  else if c = ('\r') then ['\\', 'r']
  else if c = ('\t') then ['\\', 't']
  else if c.toNat < 32 then
    ['\\', 'u', '0', '0', hexLower (c.toNat / 16), hexLower (c.toNat % 16)]
  else [c]

def quoteStr (s : String) : List Char :=
  '"' :: (s.data.flatMap escJsonChar ++ ['"'])

def decDigitChar (k : Nat) : Char := Char.ofNat (48 + k)

def natChars (n : Nat) : List Char :=
  if h : n < 10 then [decDigitChar n]
  else natChars (n / 10) ++ [decDigitChar (n % 10)]
termination_by n
decreasing_by exact Nat.div_lt_self (by omega) (by omega)

def intChars (i : Int) : List Char :=
  if i < 0 then '-' :: natChars i.natAbs else natChars i.natAbs

def indentChars (n : Nat) : List Char := List.replicate n (' ')

mutual
/-- `JSON.stringify(v, null, 2)` at indentation level `ind`. -/
def printJson (ind : Nat) : Json → List Char
  | .null => ['n', 'u', 'l', 'l']
  | .bool true => ('t') :: ['r', 'u', 'e']
  | .bool false => ['f', 'a', 'l', 's', 'e']
  | .num i => intChars i
  | .str s => quoteStr s
  | .arr [] => ['[', ']']
  | .arr (e :: es) =>
      '[' :: '\n' :: (printElems ind e es ++ '\n' :: (indentChars ind ++ [']']))
  | .obj [] => ['\x7b', '\x7d']
  | .obj (m :: ms) =>
      '\x7b' :: '\n' :: (printMembs ind m ms ++ '\n' :: (indentChars ind ++ ['\x7d']))
termination_by j => jsonSize j
decreasing_by all_goals (simp [jsonSize, jsonSizeL, jsonSizeM]; try omega)
def printElems (ind : Nat) (e : Json) : List Json → List Char
  | [] => indentChars (ind + 2) ++ printJson (ind + 2) e
  | e2 :: es =>
      (indentChars (ind + 2) ++ printJson (ind + 2) e) ++ ',' :: '\n' :: printElems ind e2 es
termination_by es => jsonSize e + jsonSizeL es + 1
decreasing_by all_goals (simp [jsonSize, jsonSizeL, jsonSizeM]; try omega)
def printMembs (ind : Nat) (m : String × Json) : List (String × Json) → List Char
  | [] => indentChars (ind + 2) ++ (quoteStr m.1 ++ ':' :: ' ' :: printJson (ind + 2) m.2)
  | m2 :: ms =>
      (indentChars (ind + 2) ++ (quoteStr m.1 ++ ':' :: ' ' :: printJson (ind + 2) m.2))
        ++ ',' :: '\n' :: printMembs ind m2 ms
termination_by ms => jsonSize m.2 + jsonSizeM ms + 1
decreasing_by all_goals (simp [jsonSize, jsonSizeL, jsonSizeM]; try omega)
end

mutual
/-- `JSON.stringify(v)` : the compact (no-indentation) form. -/
def printJsonC : Json → List Char
  | .null => ['n', 'u', 'l', 'l']
  | .bool true => ('t') :: ['r', 'u', 'e']
  | .bool false => ['f', 'a', 'l', 's', 'e']
  | .num i => intChars i
  | .str s => quoteStr s
  | .arr [] => ['[', ']']
  | .arr (e :: es) => '[' :: (printElemsC e es ++ [']'])
  | .obj [] => ['\x7b', '\x7d']
  | .obj (m :: ms) => '\x7b' :: (printMembsC m ms ++ ['\x7d'])
termination_by j => jsonSize j
decreasing_by all_goals (simp [jsonSize, jsonSizeL, jsonSizeM]; try omega)
def printElemsC (e : Json) : List Json → List Char
  | [] => printJsonC e
  | e2 :: es => printJsonC e ++ ',' :: printElemsC e2 es
termination_by es => jsonSize e + jsonSizeL es + 1
decreasing_by all_goals (simp [jsonSize, jsonSizeL, jsonSizeM]; try omega)
def printMembsC (m : String × Json) : List (String × Json) → List Char
  | [] => quoteStr m.1 ++ ':' :: printJsonC m.2
  | m2 :: ms => (quoteStr m.1 ++ ':' :: printJsonC m.2) ++ ',' :: printMembsC m2 ms
termination_by ms => jsonSize m.2 + jsonSizeM ms + 1
decreasing_by all_goals (simp [jsonSize, jsonSizeL, jsonSizeM]; try omega)
end

/-! ### `JSON.parse` : an executable parser for the integer fragment -/

def skipWs : List Char → List Char
  | [] => []
  | c :: cs => if jsonWs c then skipWs cs else c :: cs

def hexNibble (c : Char) : Option Nat :=
  if ('0') ≤ c && c ≤ ('9') then some (c.toNat - 48)
  else if ('a') ≤ c && c ≤ ('f') then some (c.toNat - 87)
  else if ('A') ≤ c && c ≤ ('F') then some (c.toNat - 55)
  else none

def decodeEsc (c : Char) : Option Char :=
  if c = ('"') then some ('"')
  else if c = ('\\') then some ('\\')
  else if c = ('/') then some ('/')
  else if c = ('b') then some ('\x08')
  else if c = ('f') then some ('\x0c')
  else if c = ('n') then some ('\n')
  else if c = ('r') then some ('\r')
  else if c = ('t') then some ('\t')
  else none

/-- Parse a JSON string body (after the opening quote) up to the closing
    quote, undoing escapes; raw control characters are rejected as in
    `JSON.parse`. -/
def parseStrBody (acc : List Char) : List Char → Option (String × List Char)
  | [] => none
  | c :: rest =>
    if c = ('"') then some (⟨acc.reverse⟩, rest)
    else if c = ('\\') then
      match rest with
      | [] => none
      | e :: rest2 =>
        if e = ('u') then
          match rest2 with
          | a :: b :: c2 :: d :: rest3 =>
            match hexNibble a, hexNibble b, hexNibble c2, hexNibble d with
            | some va, some vb, some vc, some vd =>
                parseStrBody (Char.ofNat (((va * 16 + vb) * 16 + vc) * 16 + vd) :: acc) rest3
            | _, _, _, _ => none
          | _ => none
        else
          match decodeEsc e with
          | some ch => parseStrBody (ch :: acc) rest2
          | none => none
    else if c.toNat < 32 then none
    else parseStrBody (c :: acc) rest

def takeDigitRun : List Char → List Char × List Char
  | [] => ([], [])
  | c :: cs =>
    if decDigit c then
      let p := takeDigitRun cs
      (c :: p.1, p.2)
    else ([], c :: cs)

def digitRunVal (ds : List Char) : Nat :=
  ds.foldl (fun a c => a * 10 + (c.toNat - 48)) 0

/-- A JSON unsigned-integer literal: a nonempty digit run with no redundant
    leading zero. -/
def parseNatPart (cs : List Char) : Option (Nat × List Char) :=
  let p := takeDigitRun cs
  match p.1 with
  | [] => none
  | d :: ds => if d = ('0') && ds.length > 0 then none else some (digitRunVal p.1, p.2)

def parseNumber : List Char → Option (Int × List Char)
  | '-' :: rest => (parseNatPart rest).map (fun p => (-(p.1 : Int), p.2))
  | cs => (parseNatPart cs).map (fun p => ((p.1 : Int), p.2))

/-- JS object member insertion: a duplicate key keeps its first position but
    takes the last value. -/
def insertMember (ms : List (String × Json)) (k : String) (v : Json) :
    List (String × Json) :=
  if ms.any (fun m => m.1 = k) then ms.map (fun m => if m.1 = k then (k, v) else m)
  else ms ++ [(k, v)]

def collapseMembers (raw : List (String × Json)) : List (String × Json) :=
  raw.foldl (fun acc m => insertMember acc m.1 m.2) []

mutual
def parseVal : Nat → List Char → Option (Json × List Char)
  | 0, _ => none
  | fuel + 1, cs =>
    match skipWs cs with
    | [] => none
    | c :: rest =>
      if c = ('\x7b') then
        match skipWs rest with
        | [] => none
        | c2 :: r2 =>
          if c2 = ('\x7d') then some (.obj [], r2)
          else
            (parseMembers fuel (c2 :: r2)).map (fun p => (.obj (collapseMembers p.1), p.2))
      else if c = ('[') then
        match skipWs rest with
        | [] => none
        | c2 :: r2 =>
          if c2 = (']') then some (.arr [], r2)
          else (parseElems fuel (c2 :: r2)).map (fun p => (.arr p.1, p.2))
      else if c = ('"') then
        (parseStrBody [] rest).map (fun p => (.str p.1, p.2))
      else if c = ('t') then
        match rest with
        | 'r' :: 'u' :: 'e' :: r => some (.bool true, r)
        | _ => none
      else if c = ('f') then
        match rest with
        | 'a' :: 'l' :: 's' :: 'e' :: r => some (.bool false, r)
        | _ => none
      else if c = ('n') then
        match rest with
        | 'u' :: 'l' :: 'l' :: r => some (.null, r)
        | _ => none
      else if c = ('-') || decDigit c then
        (parseNumber (c :: rest)).map (fun p => (.num p.1, p.2))
      else none
def parseElems : Nat → List Char → Option (List Json × List Char)
  | 0, _ => none
  | fuel + 1, cs =>
    match parseVal fuel cs with
    | none => none
    | some (v, r) =>
      match skipWs r with
      | ',' :: r2 => (parseElems fuel r2).map (fun p => (v :: p.1, p.2))
      | ']' :: r2 => some ([v], r2)
      | _ => none
def parseMembers : Nat → List Char → Option (List (String × Json) × List Char)
  | 0, _ => none
  | fuel + 1, cs =>
    match skipWs cs with
    | '"' :: r =>
      match parseStrBody [] r with
      | none => none
      | some (k, r1) =>
        match skipWs r1 with
        | ':' :: r2 =>
          match parseVal fuel r2 with
          | none => none
          | some (v, r3) =>
            match skipWs r3 with
            | ',' :: r4 => (parseMembers fuel r4).map (fun p => ((k, v) :: p.1, p.2))
            | '\x7d' :: r4 => some ([(k, v)], r4)
            | _ => none
        | _ => none
    | _ => none
end

/-- `JSON.parse` on the modelled fragment: `none` is a thrown `SyntaxError`. -/
def jsonParse (s : String) : Option Json :=
  match parseVal (s.data.length + 1) s.data with
  | some (j, r) => if skipWs r = [] then some j else none
  | none => none

/-! ### JS dynamic semantics on JSON values -/

/-- The backtick character. -/
def bq : Char := Char.ofNat 96

def natStr (n : Nat) : String := ⟨natChars n⟩

/-- JS `typeof` on a parsed JSON value (`typeof null` is `"object"`). -/
def jsTypeof : Json → String
  | .null => "object"
  | .bool _ => "boolean"
  | .num _ => "number"
  | .str _ => "string"
  | .arr _ => "object"
  | .obj _ => "object"

/-- `typeof x === 'object' && x !== null`. -/
def isJsObject : Json → Bool
  | .arr _ => true
  | .obj _ => true
  | _ => false

def isNull : Json → Bool
  | .null => true
  | _ => false

/-- JS truthiness of a JSON value. -/
def jsTruthy : Json → Bool
  | .null => false
  | .bool b => b
  | .num n => decide (n ≠ 0)
  | .str s => decide (s ≠ "")
  | .arr _ => true
  | .obj _ => true

/-- Truthiness of a possibly-`undefined`/`null`-bearing slot. -/
def optTruthy : Option Json → Bool
  | none => false
  | some j => jsTruthy j

/-- JS `===` between two values that never alias (the engine only ever
    compares subtrees of two separately parsed trees, so two composite
    values are never reference-equal). -/
def jsStrictEq : Json → Json → Bool
  | .null, .null => true
  | .bool x, .bool y => x = y
  | .num x, .num y => x = y
  | .str x, .str y => x = y
  | _, _ => false

/-- A canonical array index: the strings JS treats as array indices. -/
def canonIndex (k : String) : Option Nat :=
  let cs := k.data
  if cs.isEmpty then none
  else if cs.all decDigit && (cs.head? != some ('0') || cs.length == 1) then
    some (digitRunVal cs)
  else none

/-- JS property read `j[k]` (`none` is `undefined`). -/
def jsGet : Json → String → Option Json
  | .obj ms, k => (ms.find? (fun m => m.1 == k)).map Prod.snd
  | .arr es, k =>
    match canonIndex k with
    | some i => es.get? i
    | none => none
  | _, _ => none

/-- JS `Object.keys` (array indices modelled in order; integer-like object
    key reordering is abstracted to insertion order). -/
def jsKeys : Json → List String
  | .obj ms => ms.map Prod.fst
  | .arr es => (List.range es.length).map natStr
  | _ => []

/-- JS `k in j`. -/
def jsHasKey (j : Json) (k : String) : Bool := (jsKeys j).contains k

mutual
/-- JS `String(v)` on a JSON value (fuel-structural so that it reduces in
    the kernel; the wrapper's fuel strictly exceeds the recursion depth,
    which consumes at most three units per tree node). -/
def jsToStringF : Nat → Json → String
  | 0, _ => ""
  | _ + 1, .null => "null"
  | _ + 1, .bool true => "true"
  | _ + 1, .bool false => "false"
  | _ + 1, .num i => ⟨intChars i⟩
  | _ + 1, .str s => s
  | fuel + 1, .arr es => jsArrJoinF fuel es
  | _ + 1, .obj _ => "[object Object]"
/-- `Array.prototype.join(',')`: `null` elements become the empty string. -/
def jsArrJoinF : Nat → List Json → String
  | 0, _ => ""
  | _ + 1, [] => ""
  | fuel + 1, [e] => jsElemStrF fuel e
  | fuel + 1, e :: e2 :: es => jsElemStrF fuel e ++ "," ++ jsArrJoinF fuel (e2 :: es)
def jsElemStrF : Nat → Json → String
  | 0, _ => ""
  | _ + 1, .null => ""
  | fuel + 1, e => jsToStringF fuel e
end

/-- JS `String(v)`. -/
def jsToString (j : Json) : String := jsToStringF (3 * jsonSize j + 3) j

theorem jsonSize_pos (j : Json) : 0 < jsonSize j := by
  cases j <;> simp [jsonSize]

theorem jsonSizeL_mem {e : Json} {es : List Json} (h : e ∈ es) :
    jsonSize e < jsonSizeL es + 1 := by
  induction es with
  | nil => cases h
  | cons x xs ih =>
    rcases List.mem_cons.1 h with rfl | h2
    · simp [jsonSizeL]; omega
    · have := ih h2
      simp [jsonSizeL]
      omega

theorem jsonSizeM_mem {m : String × Json} {ms : List (String × Json)} (h : m ∈ ms) :
    jsonSize m.2 < jsonSizeM ms + 1 := by
  induction ms with
  | nil => cases h
  | cons x xs ih =>
    rcases List.mem_cons.1 h with rfl | h2
    · simp [jsonSizeM]; omega
    · have := ih h2
      simp [jsonSizeM]
      omega

/-- A looked-up property value is strictly smaller than its carrier. -/
theorem jsonSize_jsGet {a : Json} {k : String} {v : Json} (h : jsGet a k = some v) :
    jsonSize v < jsonSize a := by
  cases a with
  | obj ms =>
    simp only [jsGet, Option.map_eq_some'] at h
    obtain ⟨m, hm, rfl⟩ := h
    have := jsonSizeM_mem (List.mem_of_find?_eq_some hm)
    simp [jsonSize]
    omega
  | arr es =>
    simp only [jsGet] at h
    rcases hidx : canonIndex k with _ | i
    · rw [hidx] at h; cases h
    · rw [hidx] at h
      have hv : v ∈ es := List.get?_mem h
      have h1 := jsonSizeL_mem hv
      have h2 : jsonSize (Json.arr es) = 1 + jsonSizeL es := rfl
      omega
  | null => cases h
  | bool b => cases h
  | num n => cases h
  | str s => cases h

/-! ### `json-utils`: deep equality (`deepEqual`) -/

/-- Code-point lexicographic `≤` on character lists: the order that the
    default (comparator-less) `Array.prototype.sort()` induces on strings. -/
def strLexLe : List Char → List Char → Bool
  | [], _ => true
  | _ :: _, [] => false
  | a :: as, b :: bs => if a = b then strLexLe as bs else decide (a.toNat < b.toNat)

/-- The default string sort order of `Array.prototype.sort()`, as a
    relation for `List.insertionSort` (JS `sort` is stable). -/
def keyLe (s t : String) : Prop := strLexLe s.data t.data = true

instance : DecidableRel keyLe := fun s t => by
  unfold keyLe; infer_instance

theorem strLexLe_total : ∀ as bs : List Char, strLexLe as bs = true ∨ strLexLe bs as = true := by
  intro as
  induction as with
  | nil => intro bs; left; simp [strLexLe]
  | cons a as ih =>
    intro bs
    cases bs with
    | nil => right; simp [strLexLe]
    | cons b bs =>
      by_cases hab : a = b
      · subst hab
        rcases ih bs with h | h
        · left; simp [strLexLe, h]
        · right; simp [strLexLe, h]
      · rcases Nat.lt_trichotomy a.toNat b.toNat with h | h | h
        · left; simp [strLexLe, hab, h]
        · exfalso
          apply hab
          have h2 := congrArg Char.ofNat h
          rwa [Char.ofNat_toNat, Char.ofNat_toNat] at h2
        · right; simp [strLexLe, Ne.symm hab, h]

theorem strLexLe_trans : ∀ as bs cs : List Char,
    strLexLe as bs = true → strLexLe bs cs = true → strLexLe as cs = true := by
  intro as
  induction as with
  | nil => intro bs cs _ _; simp [strLexLe]
  | cons a as ih =>
    intro bs cs h1 h2
    cases bs with
    | nil => simp [strLexLe] at h1
    | cons b bs =>
      cases cs with
      | nil => simp [strLexLe] at h2
      | cons c cs =>
        by_cases hab : a = b
        · subst hab
          by_cases hac : a = c
          · subst hac
            simp only [strLexLe, if_pos rfl] at h1 h2 ⊢
            exact ih bs cs h1 h2
          · simp only [strLexLe, if_pos rfl] at h1
            simp only [strLexLe, if_neg hac] at h2 ⊢
            exact h2
        · by_cases hbc : b = c
          · subst hbc
            simp only [strLexLe, if_neg hab] at h1 ⊢
            exact h1
          · simp only [strLexLe, if_neg hab] at h1
            simp only [strLexLe, if_neg hbc] at h2
            have l1 : a.toNat < b.toNat := by simpa using h1
            have l2 : b.toNat < c.toNat := by simpa using h2
            by_cases hac : a = c
            · exfalso; subst hac; omega
            · simp only [strLexLe, if_neg hac]
              simp
              omega

theorem strLexLe_antisymm : ∀ as bs : List Char,
    strLexLe as bs = true → strLexLe bs as = true → as = bs := by
  intro as
  induction as with
  | nil =>
    intro bs h1 h2
    cases bs with
    | nil => rfl
    | cons b bs => simp [strLexLe] at h2
  | cons a as ih =>
    intro bs h1 h2
    cases bs with
    | nil => simp [strLexLe] at h1
    | cons b bs =>
      by_cases hab : a = b
      · subst hab
        simp only [strLexLe, if_pos rfl] at h1 h2
        rw [ih bs h1 h2]
      · exfalso
        simp only [strLexLe, if_neg hab] at h1
        simp only [strLexLe, if_neg (Ne.symm hab)] at h2
        have l1 : a.toNat < b.toNat := by simpa using h1
        have l2 : b.toNat < a.toNat := by simpa using h2
        omega

mutual
/-- `deepEqual(obj1, obj2, tolerance)` from `json-utils` (the debug logging
    interleaved with the comparison is observability only and is dropped).
    Fuel-structural so that it reduces in the kernel: the wrapper's
    quadratic fuel strictly dominates the recursion depth, which loses at
    least two units of summed size every two levels and walks at most
    size-many keys per level. -/
def deepEqualF (tol : Rat) : Nat → Json → Json → Bool
  | 0, _, _ => false
  | fuel + 1, a, b =>
    if jsStrictEq a b then true
    else
      match a, b with
      | .null, _ => false
      | _, .null => false
      | .num x, .num y =>
          if tol > 0 then decide (|(x : Rat) - (y : Rat)| ≤ tol) else decide (x = y)
      | .str x, .str y => decide (x = y)
      | .arr xs, .arr ys =>
          decide (xs.length = ys.length) && deepEqualListF tol fuel xs ys
      | a, b =>
        if jsTypeof a = jsTypeof b then
          if isJsObject a && isJsObject b then
            let keys1 := List.insertionSort keyLe (jsKeys a)
            let keys2 := List.insertionSort keyLe (jsKeys b)
            if keys1 = keys2 then deepEqualKeysF tol fuel a b keys1 else false
          else false
        else false
def deepEqualListF (tol : Rat) : Nat → List Json → List Json → Bool
  | 0, _, _ => false
  | fuel + 1, xs, ys =>
    match xs, ys with
    | [], _ => true
    | _, [] => true
    | x :: xs, y :: ys => deepEqualF tol fuel x y && deepEqualListF tol fuel xs ys
def deepEqualKeysF (tol : Rat) : Nat → Json → Json → List String → Bool
  | 0, _, _, _ => false
  | fuel + 1, a, b, ks =>
    match ks with
    | [] => true
    | k :: ks =>
      match jsGet a k, jsGet b k with
      | some va, some vb => deepEqualF tol fuel va vb && deepEqualKeysF tol fuel a b ks
      | none, none => deepEqualKeysF tol fuel a b ks
      | _, _ => false
end

/-- `deepEqual(obj1, obj2, tolerance)`. -/
def deepEqualT (tol : Rat) (a b : Json) : Bool :=
  deepEqualF tol ((jsonSize a + jsonSize b + 2) * (jsonSize a + jsonSize b + 2)) a b

/-- `deepEqual` at the default tolerance `0`, as every call site in the diff
    engine uses it. -/
def deepEqual (a b : Json) : Bool := deepEqualT 0 a b

/-! ### `json-utils`: granular similarity -/

/-- The union `new Set([...keys1, ...keys2])` of both key sets. -/
def unionKeys (a b : Json) : List String := (jsKeys a ++ jsKeys b).dedup

mutual
/-- `calculateGranularSimilarity(obj1, obj2)` as `(matches, total)` over all
    leaf key-value pairs reachable in either tree (fuel-structural, with the
    same fuel accounting as `deepEqualF`). -/
def granularF : Nat → Json → Json → Nat × Nat
  | 0, _, _ => (0, 0)
  | fuel + 1, a, b =>
    if jsTypeof a ≠ jsTypeof b then (0, 1)
    else
      match a, b with
      | .null, b2 => (if jsStrictEq .null b2 then 1 else 0, 1)
      | a2, .null => (if jsStrictEq a2 .null then 1 else 0, 1)
      | .bool x, .bool y => (if x = y then 1 else 0, 1)
      | .num x, .num y => (if x = y then 1 else 0, 1)
      | .str x, .str y => (if x = y then 1 else 0, 1)
      | .arr xs, .arr ys =>
          let maxLen := max xs.length ys.length
          if maxLen = 0 then (1, 1)
          else
            let p := granularPairsF fuel xs ys
            (p.1, p.2 + (maxLen - min xs.length ys.length))
      | a2, b2 =>
          let allKeys := unionKeys a2 b2
          if allKeys.length = 0 then (1, 1)
          else granularKeysF fuel a2 b2 allKeys
def granularPairsF : Nat → List Json → List Json → Nat × Nat
  | 0, _, _ => (0, 0)
  | fuel + 1, xs, ys =>
    match xs, ys with
    | x :: xs, y :: ys =>
        let r := granularF fuel x y
        let rest := granularPairsF fuel xs ys
        (r.1 + rest.1, r.2 + rest.2)
    | _, _ => (0, 0)
def granularKeysF : Nat → Json → Json → List String → Nat × Nat
  | 0, _, _, _ => (0, 0)
  | fuel + 1, a, b, ks =>
    match ks with
    | [] => (0, 0)
    | k :: ks =>
      match jsGet a k, jsGet b k with
      | some va, some vb =>
          let r := granularF fuel va vb
          let rest := granularKeysF fuel a b ks
          (r.1 + rest.1, r.2 + rest.2)
      | _, _ =>
          let rest := granularKeysF fuel a b ks
          (rest.1, rest.2 + 1)
end

/-- `calculateGranularSimilarity(obj1, obj2)`. -/
def granularT (a b : Json) : Nat × Nat :=
  granularF ((jsonSize a + jsonSize b + 2) * (jsonSize a + jsonSize b + 2)) a b

/-- `calculateObjectSimilarity(obj1, obj2)`. -/
def calculateObjectSimilarity (a b : Json) : Rat :=
  if deepEqual a b then 1
  else
    let granular := granularT a b
    (granular.1 : Rat) / (granular.2 : Rat)

/-! ### `json-utils`: canonicalization -/

/-- The sort-key expression `a.id || a.name || a.key || ''` (JS falsy
    fall-through over the three heuristic fields). -/
def sortKeyVal (a : Json) : Json :=
  if optTruthy (jsGet a ("id")) then (jsGet a ("id")).getD .null
  else if optTruthy (jsGet a ("name")) then (jsGet a ("name")).getD .null
  else if optTruthy (jsGet a ("key")) then (jsGet a ("key")).getD .null
  else .str ("")

/-- `String(a.id || a.name || a.key || '')`. -/
def arrSortKey (a : Json) : String := jsToString (sortKeyVal a)

/-- The comparator `(a, b) => String(keyA).localeCompare(String(keyB))`,
    as the ordering relation of a stable ascending sort. -/
def sortKeyLe (a b : Json) : Prop := keyLe (arrSortKey a) (arrSortKey b)

instance : DecidableRel sortKeyLe := fun a b => by
  unfold sortKeyLe; infer_instance

instance : IsTotal Json sortKeyLe :=
  ⟨fun a b => strLexLe_total (arrSortKey a).data (arrSortKey b).data⟩

instance : IsTrans Json sortKeyLe :=
  ⟨fun a b c h1 h2 => strLexLe_trans _ _ _ h1 h2⟩

/-- The comparator is antisymmetric up to equality of the extracted keys. -/
theorem sortKeyLe_antisymm_key {a b : Json} (h1 : sortKeyLe a b) (h2 : sortKeyLe b a) :
    arrSortKey a = arrSortKey b := by
  have h := strLexLe_antisymm _ _ h1 h2
  cases ha : arrSortKey a
  cases hb : arrSortKey b
  rw [ha, hb] at h
  simp only [] at h
  exact congrArg String.mk (by simpa using h)

/-- `normalizeJsonObject(obj)` from `json-utils`: object keys sorted at
    every level (`Object.keys(obj).sort()` walked with a lookup per key);
    an array is sorted by the heuristic key only when its first normalized
    element is a non-null object carrying an `id`, `name` or `key` field.
    Fuel-structural so that it reduces in the kernel; one unit of fuel per
    nesting level, so `jsonSize` fuel is always enough
    (`normalizeJsonObjectF_stable`). -/
def normalizeJsonObjectF : Nat → Json → Json
  | 0, j => j
  | fuel + 1, j =>
    match j with
    | .null => .null
    | .bool b => .bool b
    | .num n => .num n
    | .str s => .str s
    | .arr es =>
        let normalized := es.map (normalizeJsonObjectF fuel)
        match normalized with
        | [] => .arr []
        | first :: _ =>
          if isJsObject first &&
              (jsHasKey first ("id") || jsHasKey first ("name") || jsHasKey first ("key")) then
            .arr (List.insertionSort sortKeyLe normalized)
          else .arr normalized
    | .obj ms =>
        .obj ((List.insertionSort keyLe (ms.map Prod.fst)).map
          (fun k =>
            match jsGet (.obj ms) k with
            | some v => (k, normalizeJsonObjectF fuel v)
            | none => (k, .null)))

/-- `normalizeJsonObject(obj)`. -/
def normalizeJsonObject (j : Json) : Json :=
  normalizeJsonObjectF (jsonSize j) j

/-- Any fuel of at least `jsonSize` computes the same normalization: the
    recursion consumes one unit per nesting level. -/
theorem normalizeJsonObjectF_stable :
    ∀ (f1 : Nat) (j : Json) (f2 : Nat), jsonSize j ≤ f1 → jsonSize j ≤ f2 →
      normalizeJsonObjectF f1 j = normalizeJsonObjectF f2 j := by
  intro f1
  induction f1 with
  | zero =>
    intro j f2 h1 _
    have := jsonSize_pos j
    omega
  | succ f ih =>
    intro j f2 h1 h2
    have hp := jsonSize_pos j
    rcases f2 with _ | f2
    · omega
    cases j with
    | null => rfl
    | bool b => rfl
    | num n => rfl
    | str s => rfl
    | arr es =>
      have hsz : jsonSize (Json.arr es) = 1 + jsonSizeL es := rfl
      have hm : es.map (normalizeJsonObjectF f) = es.map (normalizeJsonObjectF f2) := by
        apply List.map_congr_left
        intro e he
        have hs := jsonSizeL_mem he
        exact ih e f2 (by omega) (by omega)
      simp only [normalizeJsonObjectF]
      rw [hm]
    | obj ms =>
      have hsz : jsonSize (Json.obj ms) = 1 + jsonSizeM ms := rfl
      simp only [normalizeJsonObjectF]
      congr 1
      apply List.map_congr_left
      intro k _
      rcases hv : jsGet (Json.obj ms) k with _ | v
      · rfl
      · have hs : jsonSize v < jsonSize (Json.obj ms) := jsonSize_jsGet hv
        simp only []
        rw [ih v f2 (by omega) (by omega)]

/-- The array equation of `normalizeJsonObject`, with the recursive calls
    re-expressed through the wrapper. -/
theorem normalizeJsonObject_arr (es : List Json) :
    normalizeJsonObject (Json.arr es) =
      (match es.map normalizeJsonObject with
       | [] => .arr []
       | first :: _ =>
         if isJsObject first &&
             (jsHasKey first ("id") || jsHasKey first ("name") || jsHasKey first ("key")) then
           .arr (List.insertionSort sortKeyLe (es.map normalizeJsonObject))
         else .arr (es.map normalizeJsonObject)) := by
  have hsz : jsonSize (Json.arr es) = jsonSizeL es + 1 := by
    simp [jsonSize, Nat.add_comm]
  have hm : es.map (normalizeJsonObjectF (jsonSizeL es)) = es.map normalizeJsonObject := by
    apply List.map_congr_left
    intro e he
    have hs := jsonSizeL_mem he
    exact normalizeJsonObjectF_stable (jsonSizeL es) e (jsonSize e) (by omega) (by omega)
  unfold normalizeJsonObject
  rw [hsz]
  simp only [normalizeJsonObjectF]
  rw [hm]
  rfl

/-- The object equation of `normalizeJsonObject`, with the recursive calls
    re-expressed through the wrapper. -/
theorem normalizeJsonObject_obj (ms : List (String × Json)) :
    normalizeJsonObject (Json.obj ms) =
      .obj ((List.insertionSort keyLe (ms.map Prod.fst)).map
        (fun k =>
          match jsGet (.obj ms) k with
          | some v => (k, normalizeJsonObject v)
          | none => (k, .null))) := by
  have hsz : jsonSize (Json.obj ms) = jsonSizeM ms + 1 := by
    simp [jsonSize, Nat.add_comm]
  unfold normalizeJsonObject
  rw [hsz]
  simp only [normalizeJsonObjectF]
  congr 1
  apply List.map_congr_left
  intro k _
  rcases hv : jsGet (Json.obj ms) k with _ | v
  · rfl
  · have hs : jsonSize v < jsonSize (Json.obj ms) := jsonSize_jsGet hv
    simp only []
    rw [normalizeJsonObjectF_stable (jsonSizeM ms) v (jsonSize v) (by omega) (by omega)]

/-- Two permuted lists with pairwise-distinct extracted sort keys that are
    both sorted by the comparator are equal. -/
theorem eq_of_perm_sorted_keys :
    ∀ (l1 l2 : List Json), l1.Perm l2 → l1.Sorted sortKeyLe → l2.Sorted sortKeyLe →
      (l1.map arrSortKey).Nodup → l1 = l2 := by
  intro l1
  induction l1 with
  | nil =>
    intro l2 hp _ _ _
    exact hp.nil_eq
  | cons a t ih =>
    intro l2 hp hs1 hs2 hnd
    cases l2 with
    | nil => exact absurd hp.eq_nil (by simp)
    | cons b t2 =>
      have hab : a = b := by
        by_contra hne
        have ha2 : a ∈ b :: t2 := hp.subset (by simp)
        have hb1 : b ∈ a :: t := hp.symm.subset (by simp)
        have ha : a ∈ t2 := by
          rcases List.mem_cons.mp ha2 with h | h
          · exact absurd h hne
          · exact h
        have hb : b ∈ t := by
          rcases List.mem_cons.mp hb1 with h | h
          · exact absurd h.symm hne
          · exact h
        have h1 : sortKeyLe a b := List.rel_of_sorted_cons hs1 b hb
        have h2 : sortKeyLe b a := List.rel_of_sorted_cons hs2 a ha
        have hk := sortKeyLe_antisymm_key h1 h2
        have hmem : arrSortKey b ∈ t.map arrSortKey := List.mem_map_of_mem _ hb
        rw [← hk] at hmem
        simp only [List.map, List.nodup_cons] at hnd
        exact hnd.1 hmem
      subst hab
      have hpt := hp.cons_inv
      have htl := ih t2 hpt (List.sorted_cons.mp hs1).2 (List.sorted_cons.mp hs2).2
        (by simpa using (List.nodup_cons.mp (by simpa using hnd)).2)
      rw [htl]

/-- Sorting two permuted lists whose extracted keys are pairwise distinct
    gives the same list. -/
theorem insertionSort_eq_of_perm_nodup (l1 l2 : List Json) (hp : l1.Perm l2)
    (hnd : (l1.map arrSortKey).Nodup) :
    List.insertionSort sortKeyLe l1 = List.insertionSort sortKeyLe l2 := by
  apply eq_of_perm_sorted_keys
  · exact (List.perm_insertionSort _ l1).trans (hp.trans (List.perm_insertionSort _ l2).symm)
  · exact List.sorted_insertionSort _ l1
  · exact List.sorted_insertionSort _ l2
  · exact (((List.perm_insertionSort sortKeyLe l1).map arrSortKey).nodup_iff).mpr hnd

/-- Normalizing an object node yields an object node. -/
theorem isJsObject_normalizeJsonObject_obj (ms : List (String × Json)) :
    isJsObject (normalizeJsonObject (Json.obj ms)) = true := by
  rw [normalizeJsonObject_obj]
  rfl

/-- Normalizing an object node keeps exactly the same key set. -/
theorem jsHasKey_normalizeJsonObject_obj (ms : List (String × Json)) (k : String) :
    jsHasKey (normalizeJsonObject (Json.obj ms)) k = jsHasKey (Json.obj ms) k := by
  rw [normalizeJsonObject_obj]
  simp only [jsHasKey, jsKeys]
  have hfst : ∀ l : List String,
      (l.map (fun k =>
        match jsGet (Json.obj ms) k with
        | some v => (k, normalizeJsonObject v)
        | none => (k, Json.null))).map Prod.fst = l := by
    intro l
    induction l with
    | nil => rfl
    | cons x xs ihx =>
      simp only [List.map]
      rw [ihx]
      rcases jsGet (Json.obj ms) x with _ | v <;> rfl
  rw [hfst]
  have hperm : (List.insertionSort keyLe (ms.map Prod.fst)).Perm (ms.map Prod.fst) :=
    List.perm_insertionSort _ _
  simp only [List.contains, List.elem_eq_mem]
  exact decide_eq_decide.mpr hperm.mem_iff

/-! ### `json-utils`: markdown extraction, validity, normalization -/

/-- Case-insensitive literal prefix test (regex `/.../i` on an ASCII word). -/
def lowerPrefix (cs : List Char) (w : String) : Bool :=
  (cs.take w.length).map Char.toLower == w.data

/-- The opening-fence language id `(?:json|javascript|js)?`, tried in the
    alternation order of the source regex. -/
def stripLang (cs : List Char) : List Char :=
  if lowerPrefix cs ("json") then cs.drop 4
  else if lowerPrefix cs ("javascript") then cs.drop 10
  else if lowerPrefix cs ("js") then cs.drop 2
  else cs

/-- `.replace(/^```(?:json|javascript|js)?\s*\n?/i, '')`. -/
def stripOpenFence (cs : List Char) : List Char :=
  if cs.take 3 == [bq, bq, bq] then (stripLang (cs.drop 3)).dropWhile jsWs
  else cs

/-- `.replace(/\n?```\s*$/i, '')` on a string with no trailing whitespace. -/
def stripCloseFence (cs : List Char) : List Char :=
  if cs.length ≥ 3 && cs.drop (cs.length - 3) == [bq, bq, bq] then
    let y := cs.take (cs.length - 3)
    if y.getLast? == some ('\n') then y.take (y.length - 1) else y
  else cs

/-- `extractJsonFromMarkdown(str)` from `json-utils`. -/
def extractJsonFromMarkdown (s : String) : String :=
  let trimmed := (jsTrim s).data
  let extracted := (jsTrim ⟨stripCloseFence (stripOpenFence trimmed)⟩).data
  if extracted.head? == some bq && extracted.getLast? == some bq && !extracted.isEmpty then
    jsTrim ⟨(extracted.drop 1).dropLast⟩
  else ⟨extracted⟩

/-- `isValidJson(str)` from `json-utils`: raw parse, then parse after fence
    extraction. -/
def isValidJson (s : String) : Bool :=
  (jsonParse (jsTrim s)).isSome || (jsonParse (extractJsonFromMarkdown s)).isSome

/-- The result record of `normalizeJson`. -/
structure NormalizeResult where
  normalized : String
  parsed : Option Json
  error : Option String

/-- `normalizeJson(jsonStr)` from `json-utils`. The thrown `SyntaxError`'s
    engine-specific message is abstracted to the fallback text the source
    uses for non-`Error` throwables. -/
def normalizeJson (s : String) : NormalizeResult :=
  match jsonParse (jsTrim s) with
  | some parsed =>
      let n := normalizeJsonObject parsed
      ⟨⟨printJson 0 n⟩, some n, none⟩
  | none =>
    match jsonParse (extractJsonFromMarkdown s) with
    | some parsed =>
        let n := normalizeJsonObject parsed
        ⟨⟨printJson 0 n⟩, some n, none⟩
    | none => ⟨s, none, some ("JSON parsing failed")⟩

/-! ### `diff`: tokenizing and the Levenshtein core -/

theorem dropWhile_length_le {α : Type} (p : α → Bool) (l : List α) :
    (l.dropWhile p).length ≤ l.length := by
  induction l with
  | nil => simp
  | cons a t ih =>
    by_cases h : p a
    · simp only [List.dropWhile, h]
      simp only [List.length_cons]
      omega
    · simp [List.dropWhile, h]

/-- `tokenize(text)`: trim, split on whitespace runs, drop empties — i.e. the
    maximal non-whitespace runs. -/
def wordRuns : List Char → List String
  | [] => []
  | c :: cs =>
    if jsWs c then wordRuns cs
    else ⟨c :: cs.takeWhile (fun d => !jsWs d)⟩ :: wordRuns (cs.dropWhile (fun d => !jsWs d))
termination_by cs => cs.length
decreasing_by
  all_goals simp only [List.length_cons]
  · omega
  · have := dropWhile_length_le (fun d => !jsWs d) cs
    omega

def tokenize (s : String) : List String := wordRuns s.data

/-- The character-level edit-distance DP table `dp[i][j]` of
    `levenshteinDistance` (fuel-structural: the fuel `i + j` is exactly
    enough, since every dependency of `dp[i][j]` lowers `i + j`). -/
def levDpF (s t : List Char) : Nat → Nat → Nat → Nat
  | _, 0, j => j
  | _, i + 1, 0 => i + 1
  | 0, _ + 1, _ + 1 => 0
  | fuel + 1, i + 1, j + 1 =>
    if s.getD i (' ') = t.getD j (' ') then levDpF s t fuel i j
    else 1 + min (levDpF s t fuel i (j + 1)) (min (levDpF s t fuel (i + 1) j) (levDpF s t fuel i j))

def levDp (s t : List Char) (i j : Nat) : Nat := levDpF s t (i + j) i j

def levenshteinDistance (s t : String) : Nat :=
  levDp s.data t.data s.data.length t.data.length

/-- `calculateWordSimilarity(word1, word2)`. -/
def calculateWordSimilarity (w1 w2 : String) : Rat :=
  if w1 = w2 then 1
  else
    let maxLength := max w1.length w2.length
    if maxLength = 0 then 1
    else 1 - (levenshteinDistance w1 w2 : Rat) / (maxLength : Rat)

/-! ### `diff`: the word-level engine -/

inductive DiffOperation where
  | EQUAL
  | DELETE
  | INSERT
  | REPLACE
deriving DecidableEq

structure DiffPart where
  operation : DiffOperation
  text : String
  goldenText : Option String
  outputText : Option String
  cost : Option Rat
deriving DecidableEq

/-- The DP cost table `dp[i][j]` of `computeWordDiff` (substitution `0.5`
    when word similarity exceeds `0.8`, else `1`; insert/delete `1`). -/
def wordDpF (g o : List String) : Nat → Nat → Nat → Rat
  | _, 0, j => (j : Rat)
  | _, i + 1, 0 => ((i : Rat) + 1)
  | 0, _ + 1, _ + 1 => 0
  | fuel + 1, i + 1, j + 1 =>
    let gw := g.getD i ("")
    let ow := o.getD j ("")
    if gw = ow then wordDpF g o fuel i j
    else
      let deleteCost := wordDpF g o fuel i (j + 1) + 1
      let insertCost := wordDpF g o fuel (i + 1) j + 1
      let isSimilar := calculateWordSimilarity gw ow > (4 : Rat) / 5
      let replaceCost := wordDpF g o fuel i j + (if isSimilar then (1 : Rat) / 2 else 1)
      min (min deleteCost insertCost) replaceCost

def wordDp (g o : List String) (i j : Nat) : Rat := wordDpF g o (i + j) i j

/-- The recorded operation `operations[i][j]` of `computeWordDiff`
    (REPLACE preferred on cost ties, then DELETE, then INSERT). -/
def wordOp (g o : List String) (i j : Nat) : DiffOperation :=
  match i, j with
  | 0, _ => .INSERT
  | _ + 1, 0 => .DELETE
  | i + 1, j + 1 =>
    let gw := g.getD i ("")
    let ow := o.getD j ("")
    if gw = ow then .EQUAL
    else
      let deleteCost := wordDp g o i (j + 1) + 1
      let insertCost := wordDp g o (i + 1) j + 1
      let isSimilar := calculateWordSimilarity gw ow > (4 : Rat) / 5
      let replaceCost := wordDp g o i j + (if isSimilar then (1 : Rat) / 2 else 1)
      let minCost := min (min deleteCost insertCost) replaceCost
      if minCost = replaceCost then .REPLACE
      else if minCost = deleteCost then .DELETE
      else .INSERT

/-- The backtracking loop of `computeWordDiff`; the parts pushed by later
    iterations (smaller indices) end up in front, so the recursion appends
    each cell's part after the prefix for the smaller indices. The fuel
    starts at `i + j`, which the loop never exhausts. -/
def backtrackWord (g o : List String) : Nat → Nat → Nat → List DiffPart
  | 0, _, _ => []
  | fuel + 1, i, j =>
    if i = 0 && j = 0 then []
    else
      match wordOp g o i j with
      | .EQUAL =>
          backtrackWord g o fuel (i - 1) (j - 1) ++
            [⟨.EQUAL, g.getD (i - 1) (""), none, none, none⟩]
      | .DELETE =>
          backtrackWord g o fuel (i - 1) j ++
            [⟨.DELETE, g.getD (i - 1) (""), none, none, none⟩]
      | .INSERT =>
          backtrackWord g o fuel i (j - 1) ++
            [⟨.INSERT, o.getD (j - 1) (""), none, none, none⟩]
      | .REPLACE =>
          let gw := g.getD (i - 1) ("")
          let ow := o.getD (j - 1) ("")
          let isSimilar := calculateWordSimilarity gw ow > (4 : Rat) / 5
          let replaceCost : Rat := if isSimilar then 1 / 2 else 1
          backtrackWord g o fuel (i - 1) (j - 1) ++
            [⟨.REPLACE, ow, some gw, some ow, some replaceCost⟩]

/-- `computeWordDiff(golden, output)`. -/
def computeWordDiff (g o : List String) : List DiffPart :=
  backtrackWord g o (g.length + o.length) g.length o.length

structure ChangeCounts where
  added : Nat
  removed : Nat
  modified : Nat
deriving DecidableEq

/-- The running accumulator of `calculateStats`' `forEach`. -/
structure StatsAcc where
  added : Nat
  removed : Nat
  modified : Nat
  equal : Nat
  totalDistance : Nat
  totalCost : Rat
deriving DecidableEq

/-- JS `part.cost || 1.0`. -/
def costOr1 : Option Rat → Rat
  | some c => if c = 0 then 1 else c
  | none => 1

def statsStep (a : StatsAcc) (p : DiffPart) : StatsAcc :=
  match p.operation with
  | .INSERT => ⟨a.added + 1, a.removed, a.modified, a.equal, a.totalDistance + 1, a.totalCost + 1⟩
  | .DELETE => ⟨a.added, a.removed + 1, a.modified, a.equal, a.totalDistance + 1, a.totalCost + 1⟩
  | .REPLACE =>
      ⟨a.added, a.removed, a.modified + 1, a.equal, a.totalDistance + 1,
        a.totalCost + costOr1 p.cost⟩
  | .EQUAL => ⟨a.added, a.removed, a.modified, a.equal + 1, a.totalDistance, a.totalCost + 0⟩

structure WordStatsResult where
  diffScore : Rat
  levenshteinDistance : Nat
  changes : ChangeCounts

/-- `calculateStats(diffParts)`: the weighted cost of non-equal operations
    over the total operation count. -/
def calculateStats (diffParts : List DiffPart) : WordStatsResult :=
  let a := diffParts.foldl statsStep ⟨0, 0, 0, 0, 0, 0⟩
  let total := a.added + a.removed + a.modified + a.equal
  let diffScore := if total = 0 then (0 : Rat) else a.totalCost / (total : Rat)
  ⟨diffScore, a.totalDistance, ⟨a.added, a.removed, a.modified⟩⟩

/-! ### `diff`: HTML rendering of word parts -/

def replaceAllCh (needle : Char) (repl : List Char) (cs : List Char) : List Char :=
  cs.flatMap (fun c => if c = needle then repl else [c])

/-- `escapeHtml(text)`: the five sequential global replacements. -/
def escapeHtml (s : String) : String :=
  let p1 := replaceAllCh ('&') (("&amp;").data) s.data
  let p2 := replaceAllCh ('<') (("&lt;").data) p1
  let p3 := replaceAllCh ('>') (("&gt;").data) p2
  let p4 := replaceAllCh ('"') (("&quot;").data) p3
  let p5 := replaceAllCh ('\'') (("&#39;").data) p4
  ⟨p5⟩

def genPartHtml (p : DiffPart) : String :=
  match p.operation with
  | .EQUAL => escapeHtml p.text
  | .DELETE =>
      "<span class=\"bg-red-100 dark:bg-red-900 text-red-800 dark:text-red-200 px-1 rounded line-through\" title=\"Removed\">"
        ++ escapeHtml p.text ++ "</span>"
  | .INSERT =>
      "<span class=\"bg-green-100 dark:bg-green-900 text-green-800 dark:text-green-200 px-1 rounded\" title=\"Added\">"
        ++ escapeHtml p.text ++ "</span>"
  | .REPLACE =>
      "<span class=\"bg-yellow-100 dark:bg-yellow-900 text-yellow-800 dark:text-yellow-200 px-1 rounded\" title=\"Changed from '"
        ++ escapeHtml (p.goldenText.getD ("")) ++ "'\">\n            <span class=\"line-through opacity-60\">"
        ++ escapeHtml (p.goldenText.getD ("")) ++ "</span>\n            <span class=\"font-medium\">"
        ++ escapeHtml (p.outputText.getD ("")) ++ "</span>\n          </span>"

def generateHtml (diffParts : List DiffPart) : String :=
  String.intercalate (" ") (diffParts.map genPartHtml)

structure DiffResult where
  diffScore : Rat
  diffHtml : String
  levenshteinDistance : Nat
  wordCount : Nat × Nat
  similarity : Rat
  changes : ChangeCounts

/-- `calculateDiff(golden, output)`: the word-level public entry point
    (the spec's `diffWords`). -/
def calculateDiff (golden output : String) : DiffResult :=
  let goldenWords := tokenize golden
  let outputWords := tokenize output
  let diffParts := computeWordDiff goldenWords outputWords
  let stats := calculateStats diffParts
  let diffHtml := generateHtml diffParts
  ⟨stats.diffScore, diffHtml, stats.levenshteinDistance,
    (goldenWords.length, outputWords.length), 1 - stats.diffScore, stats.changes⟩

/-! ### `diff`: the line-level engine -/

structure LineDiffPart where
  operation : DiffOperation
  text : String
  lineNumber : Option Nat
deriving DecidableEq

/-- `calculateLineSimilarity(line1, line2)` (trimmed comparison). -/
def calculateLineSimilarity (l1 l2 : String) : Rat :=
  let trimmed1 := jsTrim l1
  let trimmed2 := jsTrim l2
  if trimmed1 = trimmed2 then 1
  else
    let maxLength := max trimmed1.length trimmed2.length
    if maxLength = 0 then 1
    else 1 - (levenshteinDistance trimmed1 trimmed2 : Rat) / (maxLength : Rat)

/-- The DP cost table of `computeLineDiff` (trimmed equality, fuzzy
    threshold `0.9`). -/
def lineDpF (g o : List String) : Nat → Nat → Nat → Rat
  | _, 0, j => (j : Rat)
  | _, i + 1, 0 => ((i : Rat) + 1)
  | 0, _ + 1, _ + 1 => 0
  | fuel + 1, i + 1, j + 1 =>
    let gl := g.getD i ("")
    let ol := o.getD j ("")
    if jsTrim gl = jsTrim ol then lineDpF g o fuel i j
    else
      let deleteCost := lineDpF g o fuel i (j + 1) + 1
      let insertCost := lineDpF g o fuel (i + 1) j + 1
      let isSimilar := calculateLineSimilarity gl ol > (9 : Rat) / 10
      let replaceCost := lineDpF g o fuel i j + (if isSimilar then (1 : Rat) / 2 else 1)
      min (min deleteCost insertCost) replaceCost

def lineDp (g o : List String) (i j : Nat) : Rat := lineDpF g o (i + j) i j

/-- The recorded operation table of `computeLineDiff`. -/
def lineOp (g o : List String) (i j : Nat) : DiffOperation :=
  match i, j with
  | 0, _ => .INSERT
  | _ + 1, 0 => .DELETE
  | i + 1, j + 1 =>
    let gl := g.getD i ("")
    let ol := o.getD j ("")
    if jsTrim gl = jsTrim ol then .EQUAL
    else
      let deleteCost := lineDp g o i (j + 1) + 1
      let insertCost := lineDp g o (i + 1) j + 1
      let isSimilar := calculateLineSimilarity gl ol > (9 : Rat) / 10
      let replaceCost := lineDp g o i j + (if isSimilar then (1 : Rat) / 2 else 1)
      let minCost := min (min deleteCost insertCost) replaceCost
      if minCost = replaceCost then .REPLACE
      else if minCost = deleteCost then .DELETE
      else .INSERT

/-- The backtracking loop of `computeLineDiff`. The line-number counters
    always coincide with the loop indices, so the emitted numbers are `i`
    and `j`. A REPLACE decision `unshift`s a DELETE row and then an INSERT
    row, leaving the INSERT row first. -/
def backtrackLine (g o : List String) : Nat → Nat → Nat → List LineDiffPart
  | 0, _, _ => []
  | fuel + 1, i, j =>
    if i = 0 && j = 0 then []
    else
      match lineOp g o i j with
      | .EQUAL =>
          backtrackLine g o fuel (i - 1) (j - 1) ++
            [⟨.EQUAL, g.getD (i - 1) (""), some i⟩]
      | .DELETE =>
          backtrackLine g o fuel (i - 1) j ++
            [⟨.DELETE, g.getD (i - 1) (""), some i⟩]
      | .INSERT =>
          backtrackLine g o fuel i (j - 1) ++
            [⟨.INSERT, o.getD (j - 1) (""), some j⟩]
      | .REPLACE =>
          backtrackLine g o fuel (i - 1) (j - 1) ++
            [⟨.INSERT, o.getD (j - 1) (""), some j⟩,
             ⟨.DELETE, g.getD (i - 1) (""), some i⟩]

/-- `computeLineDiff(golden, output)`. -/
def computeLineDiff (g o : List String) : List LineDiffPart :=
  backtrackLine g o (g.length + o.length) g.length o.length

structure LineStatsResult where
  diffScore : Rat
  changes : ChangeCounts

/-- The running accumulator of `calculateLineStats`' `forEach`. -/
def lineStatsStep (a : Nat × Nat × Nat × Nat) (p : LineDiffPart) : Nat × Nat × Nat × Nat :=
  match p.operation with
  | .INSERT => (a.1 + 1, a.2.1, a.2.2.1, a.2.2.2)
  | .DELETE => (a.1, a.2.1 + 1, a.2.2.1, a.2.2.2)
  | .REPLACE => (a.1, a.2.1, a.2.2.1 + 1, a.2.2.2)
  | .EQUAL => (a.1, a.2.1, a.2.2.1, a.2.2.2 + 1)

/-- `calculateLineStats(diffParts)`. -/
def calculateLineStats (diffParts : List LineDiffPart) : LineStatsResult :=
  let a := diffParts.foldl lineStatsStep (0, 0, 0, 0)
  let added := a.1
  let removed := a.2.1
  let modified := a.2.2.1
  let equal := a.2.2.2
  let total := added + removed + modified + equal
  let diffScore :=
    if total = 0 then (0 : Rat) else ((added + removed + modified : Nat) : Rat) / (total : Rat)
  ⟨diffScore, ⟨added, removed, modified⟩⟩

/-- `${part.lineNumber || '?'}` (a zero line number is falsy in JS). -/
def lineNoOr (alt : String) : Option Nat → String
  | some n => if n = 0 then alt else natStr n
  | none => alt

def genLinePartHtml (p : LineDiffPart) : String :=
  match p.operation with
  | .EQUAL => "<div class=\"line-equal\">" ++ escapeHtml p.text ++ "</div>"
  | .DELETE =>
      "<div class=\"line-delete bg-red-100 dark:bg-red-900 text-red-800 dark:text-red-200 px-2 py-1 rounded-md border-l-4 border-red-500\" title=\"Line "
        ++ lineNoOr ("unknown") p.lineNumber ++ " removed\">\n            <span class=\"text-xs text-red-600 dark:text-red-400 font-mono\">- "
        ++ lineNoOr ("?") p.lineNumber ++ "</span>\n            <span class=\"ml-2 line-through\">"
        ++ escapeHtml p.text ++ "</span>\n          </div>"
  | .INSERT =>
      "<div class=\"line-insert bg-green-100 dark:bg-green-900 text-green-800 dark:text-green-200 px-2 py-1 rounded-md border-l-4 border-green-500\" title=\"Line "
        ++ lineNoOr ("unknown") p.lineNumber ++ " added\">\n            <span class=\"text-xs text-green-600 dark:text-green-400 font-mono\">+ "
        ++ lineNoOr ("?") p.lineNumber ++ "</span>\n            <span class=\"ml-2\">"
        ++ escapeHtml p.text ++ "</span>\n          </div>"
  | .REPLACE => "<div class=\"line-equal\">" ++ escapeHtml p.text ++ "</div>"

def generateLineHtml (diffParts : List LineDiffPart) : String :=
  String.join (diffParts.map genLinePartHtml)

structure LineDiffResult where
  diffScore : Rat
  diffHtml : String
  lineCount : Nat × Nat
  similarity : Rat
  changes : ChangeCounts

/-- `calculateLineDiff(golden, output)`: the line-level public entry point
    (the spec's `diffLines`). -/
def calculateLineDiff (golden output : String) : LineDiffResult :=
  let goldenLines := golden.splitOn ("\n")
  let outputLines := output.splitOn ("\n")
  let diffParts := computeLineDiff goldenLines outputLines
  let stats := calculateLineStats diffParts
  let diffHtml := generateLineHtml diffParts
  ⟨stats.diffScore, diffHtml, (goldenLines.length, outputLines.length),
    1 - stats.diffScore, stats.changes⟩

/-! ### `diff`: the LCS array reconciler -/

inductive ArrayDiffType where
  | equal
  | added
  | removed
  | moved
deriving DecidableEq

structure ArrayDiffOperation where
  type : ArrayDiffType
  value : Json
  oldIndex : Option Nat
  newIndex : Option Nat

/-- The LCS table of `calculateLCSArrayDiff`: matches are `deepEqual`. -/
def lcsVal (a1 a2 : List Json) : Nat → Nat → Nat
  | 0, _ => 0
  | _ + 1, 0 => 0
  | i + 1, j + 1 =>
    if deepEqual (a1.getD i .null) (a2.getD j .null) then lcsVal a1 a2 i j + 1
    else max (lcsVal a1 a2 i (j + 1)) (lcsVal a1 a2 (i + 1) j)
termination_by i j => (i, j)

/-- The backtracking loop of `calculateLCSArrayDiff` (the debug logging of
    the first-cell comparison is observability only and is dropped). -/
def lcsBacktrack (a1 a2 : List Json) (i j : Nat) : List ArrayDiffOperation :=
  if i = 0 ∧ j = 0 then []
  else if 0 < i ∧ 0 < j ∧ deepEqual (a1.getD (i - 1) .null) (a2.getD (j - 1) .null) then
    lcsBacktrack a1 a2 (i - 1) (j - 1) ++
      [⟨.equal, a1.getD (i - 1) .null, some (i - 1), some (j - 1)⟩]
  else if 0 < i ∧ 0 < j ∧
      calculateObjectSimilarity (a1.getD (i - 1) .null) (a2.getD (j - 1) .null) > (4 : Rat) / 5 then
    lcsBacktrack a1 a2 (i - 1) (j - 1) ++
      [⟨.equal, a2.getD (j - 1) .null, some (i - 1), some (j - 1)⟩]
  else if 0 < j ∧ (i = 0 ∨ lcsVal a1 a2 i (j - 1) ≥ lcsVal a1 a2 (i - 1) j) then
    lcsBacktrack a1 a2 i (j - 1) ++ [⟨.added, a2.getD (j - 1) .null, none, some (j - 1)⟩]
  else
    lcsBacktrack a1 a2 (i - 1) j ++ [⟨.removed, a1.getD (i - 1) .null, some (i - 1), none⟩]
termination_by i + j
decreasing_by
  · omega
  · omega
  · omega
  · rename_i h0 h1 h2 h3
    rcases Nat.eq_zero_or_pos i with hi | hi
    · exfalso
      apply h3
      refine ⟨?_, Or.inl hi⟩
      rcases Nat.eq_zero_or_pos j with hj | hj
      · exact absurd ⟨hi, hj⟩ h0
      · exact hj
    · omega

/-- `calculateLCSArrayDiff(arr1, arr2)`. -/
def calculateLCSArrayDiff (a1 a2 : List Json) : List ArrayDiffOperation :=
  lcsBacktrack a1 a2 a1.length a2.length

/-- `${op.newIndex}` / `${op.oldIndex}` interpolation. -/
def idxStr : Option Nat → String
  | some n => natStr n
  | none => "undefined"

def genArrayOpHtml (idx : Nat) (op : ArrayDiffOperation) : String :=
  let valueStr :=
    if jsTypeof op.value = ("object") then (⟨printJson 0 op.value⟩ : String)
    else jsToString op.value
  match op.type with
  | .equal =>
      "<div class=\"array-item-equal\" data-index=\"" ++ natStr idx ++ "\">"
        ++ escapeHtml valueStr ++ "</div>"
  | .added =>
      "<div class=\"array-item-added bg-green-100 dark:bg-green-900 text-green-800 dark:text-green-200 px-2 py-1 rounded-md border-l-4 border-green-500\" data-index=\""
        ++ natStr idx ++ "\" title=\"Added at position " ++ idxStr op.newIndex
        ++ "\">\n          <span class=\"text-xs text-green-600 dark:text-green-400 font-mono\">+ "
        ++ idxStr op.newIndex ++ "</span>\n          <span class=\"ml-2\">" ++ escapeHtml valueStr
        ++ "</span>\n        </div>"
  | .removed =>
      "<div class=\"array-item-removed bg-red-100 dark:bg-red-900 text-red-800 dark:text-red-200 px-2 py-1 rounded-md border-l-4 border-red-500\" data-index=\""
        ++ natStr idx ++ "\" title=\"Removed from position " ++ idxStr op.oldIndex
        ++ "\">\n          <span class=\"text-xs text-red-600 dark:text-red-400 font-mono\">- "
        ++ idxStr op.oldIndex ++ "</span>\n          <span class=\"ml-2 line-through\">"
        ++ escapeHtml valueStr ++ "</span>\n        </div>"
  | .moved => "<div class=\"array-item-equal\">" ++ escapeHtml valueStr ++ "</div>"

/-- `generateArrayDiffHtml(operations)`. -/
def generateArrayDiffHtml (operations : List ArrayDiffOperation) : String :=
  String.intercalate ("\n") (operations.enum.map (fun p => genArrayOpHtml p.1 p.2))

/-! ### `diff`: the JSON diff orchestrator -/

structure JsonChanges where
  structuralChanges : Nat
  valueChanges : Nat
  additions : Nat
  removals : Nat

mutual
/-- The inner `countChanges(o1, o2)` walk of `calculateImprovedJsonChanges`,
    as `(additions, removals, structuralChanges)`. -/
def countChanges (o1 o2 : Json) : Nat × Nat × Nat :=
  match o1, o2 with
  | .arr xs, .arr ys =>
      let arrayDiff := calculateLCSArrayDiff xs ys
      (arrayDiff.countP (fun op => op.type == .added),
        arrayDiff.countP (fun op => op.type == .removed), 0)
  | o1, o2 =>
      if isJsObject o1 && isJsObject o2 then countKeys o1 o2 (unionKeys o1 o2)
      else (0, 0, 0)
termination_by (jsonSize o1 + jsonSize o2, 1, 0)
decreasing_by
  all_goals (apply Prod.Lex.right; exact Prod.Lex.left _ _ (by omega))
def countKeys (o1 o2 : Json) : List String → Nat × Nat × Nat
  | [] => (0, 0, 0)
  | k :: ks =>
      let rest := countKeys o1 o2 ks
      match h1 : jsGet o1 k, h2 : jsGet o2 k with
      | none, _ => (rest.1 + 1, rest.2.1, rest.2.2)
      | some _, none => (rest.1, rest.2.1 + 1, rest.2.2)
      | some v1, some v2 =>
        if jsTypeof v1 = ("object") ∧ jsTypeof v2 = ("object") then
          let inner := countChanges v1 v2
          (rest.1 + inner.1, rest.2.1 + inner.2.1, rest.2.2 + inner.2.2)
        else if !deepEqual v1 v2 then (rest.1, rest.2.1, rest.2.2 + 1)
        else rest
termination_by ks => (jsonSize o1 + jsonSize o2, 0, ks.length)
decreasing_by
  all_goals first
    | (apply Prod.Lex.left
       have u1 := jsonSize_jsGet h1
       have u2 := jsonSize_jsGet h2
       omega)
    | (apply Prod.Lex.right
       apply Prod.Lex.right
       simp only [List.length_cons]
       omega)
end

/-- `calculateImprovedJsonChanges(obj1, obj2, text1, text2)`. -/
def calculateImprovedJsonChanges (obj1 obj2 : Option Json) (text1 text2 : String) :
    JsonChanges :=
  if !(optTruthy obj1 && optTruthy obj2) then
    let textDiff := calculateDiff text1 text2
    ⟨0, textDiff.changes.modified, textDiff.changes.added, textDiff.changes.removed⟩
  else
    let c := countChanges (obj1.getD .null) (obj2.getD .null)
    ⟨c.2.2, c.2.2, c.1, c.2.1⟩

/-- `calculateJsonStructuralSimilarity(obj1, obj2)`. -/
def calculateJsonStructuralSimilarity (a b : Json) : Rat :=
  if deepEqual a b then 1 else calculateObjectSimilarity a b

mutual
/-- `generateStructuralDiffHtml(obj1, obj2)`. -/
def generateStructuralDiffHtml (obj1 obj2 : Json) : String :=
  if jsStrictEq obj1 obj2 then
    "<span class=\"json-equal\">" ++ escapeHtml (⟨printJson 0 obj1⟩ : String) ++ "</span>"
  else if isNull obj1 || isNull obj2 || jsTypeof obj1 != jsTypeof obj2 then
    "<div class=\"json-change\">\n      <div class=\"json-removed\">- "
      ++ escapeHtml (⟨printJson 0 obj1⟩ : String) ++ "</div>\n      <div class=\"json-added\">+ "
      ++ escapeHtml (⟨printJson 0 obj2⟩ : String) ++ "</div>\n    </div>"
  else
    match obj1, obj2 with
    | .arr xs, .arr ys =>
        "<div class=\"json-array-improved\">[\n"
          ++ generateArrayDiffHtml (calculateLCSArrayDiff xs ys) ++ "\n]</div>"
    | o1, o2 =>
      if isJsObject o1 && isJsObject o2 then
        "<div class=\"json-object\">\x7b\n"
          ++ structKeysHtml o1 o2 (List.insertionSort keyLe (unionKeys o1 o2))
          ++ "\n\x7d</div>"
      else
        "<div class=\"json-change\">\n    <span class=\"json-removed\">- "
          ++ escapeHtml (⟨printJsonC o1⟩ : String) ++ "</span>\n    <span class=\"json-added\">+ "
          ++ escapeHtml (⟨printJsonC o2⟩ : String) ++ "</span>\n  </div>"
termination_by (jsonSize obj1 + jsonSize obj2, 1, 0)
decreasing_by
  all_goals (apply Prod.Lex.right; exact Prod.Lex.left _ _ (by omega))
def structKeysHtml (o1 o2 : Json) : List String → String
  | [] => ""
  | k :: ks =>
      let piece :=
        match h1 : jsGet o1 k, h2 : jsGet o2 k with
        | some v1, some v2 =>
          if jsStrictEq v1 v2 then
            "  <span class=\"json-equal\">\"" ++ escapeHtml k ++ "\": "
              ++ escapeHtml (⟨printJsonC v1⟩ : String) ++ "</span>"
          else
            "  <span class=\"json-key\">\"" ++ escapeHtml k ++ "\":</span> "
              ++ generateStructuralDiffHtml v1 v2
        | some v1, none =>
            "  <div class=\"json-removed\">- \"" ++ escapeHtml k ++ "\": "
              ++ escapeHtml (⟨printJsonC v1⟩ : String) ++ "</div>"
        | none, some v2 =>
            "  <div class=\"json-added\">+ \"" ++ escapeHtml k ++ "\": "
              ++ escapeHtml (⟨printJsonC v2⟩ : String) ++ "</div>"
        | none, none => ""
      piece ++ (match ks with | [] => "" | _ => ",\n") ++ structKeysHtml o1 o2 ks
termination_by ks => (jsonSize o1 + jsonSize o2, 0, ks.length)
decreasing_by
  all_goals first
    | (apply Prod.Lex.left
       have u1 := jsonSize_jsGet h1
       have u2 := jsonSize_jsGet h2
       omega)
    | (apply Prod.Lex.right
       apply Prod.Lex.right
       simp only [List.length_cons]
       omega)
end

/-- `generateImprovedJsonDiffHtml(goldenParsed, outputParsed, goldenText,
    outputText)`. -/
def generateImprovedJsonDiffHtml (goldenParsed outputParsed : Option Json)
    (goldenText outputText : String) : String :=
  if optTruthy goldenParsed && optTruthy outputParsed then
    generateStructuralDiffHtml (goldenParsed.getD .null) (outputParsed.getD .null)
  else (calculateDiff goldenText outputText).diffHtml

structure JsonChangesOpt where
  structuralChanges : Option Nat
  valueChanges : Option Nat
  additions : Option Nat
  removals : Option Nat
deriving DecidableEq

/-- The result record of `calculateJsonDiff`; `isValidJson` is the pair
    `(golden, output)` and `parseErrors` the pair of per-side messages. -/
structure JsonDiffResult where
  diffScore : Option Rat
  similarity : Option Rat
  diffHtml : String
  normalizedGolden : String
  normalizedOutput : String
  isValidJson : Bool × Bool
  parseErrors : Option String × Option String
  changes : JsonChangesOpt

/-- `calculateJsonDiff(golden, output)`: the JSON orchestrator (the spec's
    `diffJson`), final revision: pure structural similarity when both sides
    are valid, NaN-signalling results otherwise. -/
def calculateJsonDiff (golden output : String) : JsonDiffResult :=
  let goldenValid := isValidJson golden
  let outputValid := isValidJson output
  if !goldenValid then
    ⟨none, none, "", golden, output, (false, false), (some (""), some ("")),
      ⟨some 0, none, none, none⟩⟩
  else
    let goldenNorm := normalizeJson golden
    let outputNorm := normalizeJson output
    if !outputValid then
      ⟨none, none, "", golden, output, (true, false),
        (goldenNorm.error, outputNorm.error), ⟨some 0, none, none, none⟩⟩
    else
      let structuralSimilarity :=
        if optTruthy goldenNorm.parsed && optTruthy outputNorm.parsed then
          calculateJsonStructuralSimilarity (goldenNorm.parsed.getD .null)
            (outputNorm.parsed.getD .null)
        else 0
      let improvedChanges := calculateImprovedJsonChanges goldenNorm.parsed outputNorm.parsed
        goldenNorm.normalized outputNorm.normalized
      let normalizedTextDiff := calculateDiff goldenNorm.normalized outputNorm.normalized
      let diffHtml := generateImprovedJsonDiffHtml goldenNorm.parsed outputNorm.parsed
        goldenNorm.normalized outputNorm.normalized
      let finalSimilarity :=
        if goldenValid && outputValid then structuralSimilarity
        else normalizedTextDiff.similarity
      ⟨some (1 - finalSimilarity), some finalSimilarity, diffHtml,
        goldenNorm.normalized, outputNorm.normalized, (goldenValid, outputValid),
        (goldenNorm.error, outputNorm.error),
        if goldenValid && outputValid then
          ⟨some improvedChanges.structuralChanges, some improvedChanges.valueChanges,
            some improvedChanges.additions, some improvedChanges.removals⟩
        else
          ⟨some 0, some normalizedTextDiff.changes.modified,
            some normalizedTextDiff.changes.added, some normalizedTextDiff.changes.removed⟩⟩

/-! ## Claim theorems -/

/-! ### C10: the LCS reconciler accounts for both inputs -/

theorem lcsBacktrack_counts (a1 a2 : List Json) :
    ∀ n i j, i + j ≤ n →
      ((lcsBacktrack a1 a2 i j).countP (fun op => op.type == .moved) = 0 ∧
       (lcsBacktrack a1 a2 i j).countP (fun op => op.type == .equal) +
         (lcsBacktrack a1 a2 i j).countP (fun op => op.type == .removed) = i ∧
       (lcsBacktrack a1 a2 i j).countP (fun op => op.type == .equal) +
         (lcsBacktrack a1 a2 i j).countP (fun op => op.type == .added) = j) := by
  intro n
  induction n with
  | zero =>
    intro i j hij
    have hi : i = 0 := by omega
    have hj : j = 0 := by omega
    subst hi; subst hj
    rw [lcsBacktrack]
    simp
  | succ n ih =>
    intro i j hij
    rw [lcsBacktrack]
    by_cases h0 : i = 0 ∧ j = 0
    · simp [h0]
    · simp only [if_neg h0]
      by_cases h1 : 0 < i ∧ 0 < j ∧
          deepEqual (a1.getD (i - 1) .null) (a2.getD (j - 1) .null) = true
      · simp only [if_pos h1]
        obtain ⟨hi, hj, -⟩ := h1
        obtain ⟨c1, c2, c3⟩ := ih (i - 1) (j - 1) (by omega)
        refine ⟨?_, ?_, ?_⟩ <;>
          simp only [List.countP_append, List.countP_cons, List.countP_nil, c1] <;>
          simp <;> omega
      · simp only [if_neg h1]
        by_cases h2 : 0 < i ∧ 0 < j ∧
            calculateObjectSimilarity (a1.getD (i - 1) .null) (a2.getD (j - 1) .null) >
              (4 : Rat) / 5
        · simp only [if_pos h2]
          obtain ⟨hi, hj, -⟩ := h2
          obtain ⟨c1, c2, c3⟩ := ih (i - 1) (j - 1) (by omega)
          refine ⟨?_, ?_, ?_⟩ <;>
            simp only [List.countP_append, List.countP_cons, List.countP_nil, c1] <;>
            simp <;> omega
        · simp only [if_neg h2]
          by_cases h3 : 0 < j ∧
              (i = 0 ∨ lcsVal a1 a2 i (j - 1) ≥ lcsVal a1 a2 (i - 1) j)
          · simp only [if_pos h3]
            obtain ⟨hj, -⟩ := h3
            obtain ⟨c1, c2, c3⟩ := ih i (j - 1) (by omega)
            refine ⟨?_, ?_, ?_⟩ <;>
              simp only [List.countP_append, List.countP_cons, List.countP_nil, c1] <;>
              simp <;> omega
          · simp only [if_neg h3]
            have hipos : 0 < i := by
              rcases Nat.eq_zero_or_pos i with hi | hi
              · exfalso
                apply h3
                refine ⟨?_, Or.inl hi⟩
                rcases Nat.eq_zero_or_pos j with hj | hj
                · exact absurd ⟨hi, hj⟩ h0
                · exact hj
              · exact hi
            obtain ⟨c1, c2, c3⟩ := ih (i - 1) j (by omega)
            refine ⟨?_, ?_, ?_⟩ <;>
              simp only [List.countP_append, List.countP_cons, List.countP_nil, c1] <;>
              simp <;> omega

/-- C10: for every pair of input arrays, the LCS array reconciler (a total
    function, so it terminates) emits no `moved` operation, its `equal` and
    `removed` operations together account for every element of the reference
    array, and its `equal` and `added` operations together account for every
    element of the candidate array. -/
theorem calculateLCSArrayDiff_complete (a1 a2 : List Json) :
    (calculateLCSArrayDiff a1 a2).countP (fun op => op.type == .moved) = 0 ∧
    (calculateLCSArrayDiff a1 a2).countP (fun op => op.type == .equal) +
      (calculateLCSArrayDiff a1 a2).countP (fun op => op.type == .removed) = a1.length ∧
    (calculateLCSArrayDiff a1 a2).countP (fun op => op.type == .equal) +
      (calculateLCSArrayDiff a1 a2).countP (fun op => op.type == .added) = a2.length :=
  lcsBacktrack_counts a1 a2 (a1.length + a2.length) a1.length a2.length (by omega)

/-! ### C7/C9: the word-level score characterization -/

/-- Specification-side cost of one aligned operation, as the claim states
    it: `0.5` for a REPLACE whose stored word pair has similarity above
    `0.8`, `1` for any other non-equal operation, `0` for EQUAL. -/
def specOpCost (p : DiffPart) : Rat :=
  match p.operation with
  | .EQUAL => 0
  | .INSERT => 1
  | .DELETE => 1
  | .REPLACE =>
      if calculateWordSimilarity (p.goldenText.getD ("")) (p.outputText.getD ("")) >
          (4 : Rat) / 5 then 1 / 2 else 1

theorem specOpCost_nonneg (p : DiffPart) : 0 ≤ specOpCost p := by
  unfold specOpCost
  rcases p.operation <;> simp <;> split <;> norm_num

theorem specOpCost_le_one (p : DiffPart) : specOpCost p ≤ 1 := by
  unfold specOpCost
  rcases p.operation <;> simp <;> split <;> norm_num

theorem specOpCost_replace_ne_zero (p : DiffPart) (h : p.operation = .REPLACE) :
    specOpCost p ≠ 0 := by
  simp only [specOpCost, h]
  split <;> norm_num

/-- Every REPLACE part the word backtracker emits stores the cost that the
    claim's rule recomputes from its stored word pair. -/
theorem backtrackWord_replace_cost (g o : List String) :
    ∀ fuel i j, ∀ p ∈ backtrackWord g o fuel i j,
      p.operation = .REPLACE → p.cost = some (specOpCost p) := by
  intro fuel
  induction fuel with
  | zero => intro i j p hp; simp [backtrackWord] at hp
  | succ fuel ih =>
    intro i j p hp
    rw [backtrackWord] at hp
    by_cases h0 : i = 0 && j = 0
    · simp [h0] at hp
    · rw [if_neg (by simpa using h0)] at hp
      rcases hop : wordOp g o i j with _ | _ | _ | _ <;> rw [hop] at hp <;>
        simp only [List.mem_append, List.mem_singleton] at hp <;>
        rcases hp with hp | hp
      · exact ih _ _ p hp
      · intro hc; rw [hp] at hc; cases hc
      · exact ih _ _ p hp
      · intro hc; rw [hp] at hc; cases hc
      · exact ih _ _ p hp
      · intro hc; rw [hp] at hc; cases hc
      · exact ih _ _ p hp
      · intro _
        rw [hp]
        simp only [specOpCost, Option.getD_some]

theorem computeWordDiff_replace_cost (g o : List String) :
    ∀ p ∈ computeWordDiff g o, p.operation = .REPLACE → p.cost = some (specOpCost p) := by
  intro p hp
  exact backtrackWord_replace_cost g o _ _ _ p hp

/-- The `forEach` of `calculateStats`: the `added` field counts INSERTs. -/
theorem foldl_stats_added (parts : List DiffPart) : ∀ a : StatsAcc,
    (parts.foldl statsStep a).added =
      a.added + parts.countP (fun p => p.operation == .INSERT) := by
  induction parts with
  | nil => intro a; simp
  | cons p ps ih =>
    intro a
    simp only [List.foldl_cons, List.countP_cons, ih]
    rcases hop : p.operation <;> simp [statsStep, hop] <;> omega

/-- The `removed` field counts DELETEs. -/
theorem foldl_stats_removed (parts : List DiffPart) : ∀ a : StatsAcc,
    (parts.foldl statsStep a).removed =
      a.removed + parts.countP (fun p => p.operation == .DELETE) := by
  induction parts with
  | nil => intro a; simp
  | cons p ps ih =>
    intro a
    simp only [List.foldl_cons, List.countP_cons, ih]
    rcases hop : p.operation <;> simp [statsStep, hop] <;> omega

/-- The `modified` field counts REPLACEs, regardless of their cost. -/
theorem foldl_stats_modified (parts : List DiffPart) : ∀ a : StatsAcc,
    (parts.foldl statsStep a).modified =
      a.modified + parts.countP (fun p => p.operation == .REPLACE) := by
  induction parts with
  | nil => intro a; simp
  | cons p ps ih =>
    intro a
    simp only [List.foldl_cons, List.countP_cons, ih]
    rcases hop : p.operation <;> simp [statsStep, hop] <;> omega

/-- The `equal` field counts EQUALs. -/
theorem foldl_stats_equal (parts : List DiffPart) : ∀ a : StatsAcc,
    (parts.foldl statsStep a).equal =
      a.equal + parts.countP (fun p => p.operation == .EQUAL) := by
  induction parts with
  | nil => intro a; simp
  | cons p ps ih =>
    intro a
    simp only [List.foldl_cons, List.countP_cons, ih]
    rcases hop : p.operation <;> simp [statsStep, hop] <;> omega

/-- The weighted `totalCost` is the sum of the claim's per-operation costs,
    whenever every REPLACE part stores its recomputed cost. -/
theorem foldl_stats_totalCost (parts : List DiffPart)
    (hrep : ∀ p ∈ parts, p.operation = .REPLACE → p.cost = some (specOpCost p)) :
    ∀ a : StatsAcc,
      (parts.foldl statsStep a).totalCost = a.totalCost + (parts.map specOpCost).sum := by
  induction parts with
  | nil => intro a; simp
  | cons p ps ih =>
    intro a
    have hrep' : ∀ q ∈ ps, q.operation = .REPLACE → q.cost = some (specOpCost q) :=
      fun q hq => hrep q (List.mem_cons_of_mem p hq)
    simp only [List.foldl_cons, List.map_cons, List.sum_cons, ih hrep']
    rcases hop : p.operation with _ | _ | _ | _
    · simp [statsStep, hop, specOpCost]
    · simp [statsStep, hop, specOpCost]; ring
    · simp [statsStep, hop, specOpCost]; ring
    · have hc : p.cost = some (specOpCost p) := hrep p (List.mem_cons_self p ps) hop
      have hnz : specOpCost p ≠ 0 := specOpCost_replace_ne_zero p hop
      simp only [statsStep, hop, hc, costOr1, if_neg hnz]
      ring

/-- The four operation counts partition the part list. -/
theorem countP_partition (parts : List DiffPart) :
    parts.countP (fun p => p.operation == .INSERT) +
      parts.countP (fun p => p.operation == .DELETE) +
      parts.countP (fun p => p.operation == .REPLACE) +
      parts.countP (fun p => p.operation == .EQUAL) = parts.length := by
  induction parts with
  | nil => simp
  | cons p ps ih =>
    simp only [List.countP_cons, List.length_cons]
    rcases p.operation <;> simp <;> omega

theorem sum_specOpCost_nonneg (parts : List DiffPart) :
    0 ≤ (parts.map specOpCost).sum := by
  induction parts with
  | nil => simp
  | cons p ps ih =>
    simp only [List.map_cons, List.sum_cons]
    have := specOpCost_nonneg p
    linarith

theorem sum_specOpCost_le_length (parts : List DiffPart) :
    (parts.map specOpCost).sum ≤ (parts.length : Rat) := by
  induction parts with
  | nil => simp
  | cons p ps ih =>
    simp only [List.map_cons, List.sum_cons, List.length_cons]
    have := specOpCost_le_one p
    push_cast
    linarith

/-- C7: `diffWords` scores a pair of strings as the sum of per-operation
    costs over the total number of aligned operations — `0` for EQUAL, `1`
    for INSERT and DELETE, and for a REPLACE `0.5` exactly when the stored
    word pair's similarity exceeds `0.8`, else `1` — while
    `changes.added`/`removed`/`modified` count the INSERT/DELETE/REPLACE
    operations regardless of their cost. -/
theorem calculateDiff_weighted_score (golden output : String) :
    (calculateDiff golden output).diffScore =
      (if (computeWordDiff (tokenize golden) (tokenize output)).length = 0 then (0 : Rat)
       else ((computeWordDiff (tokenize golden) (tokenize output)).map specOpCost).sum /
         (((computeWordDiff (tokenize golden) (tokenize output)).length : Nat) : Rat)) ∧
    (calculateDiff golden output).changes =
      ⟨(computeWordDiff (tokenize golden) (tokenize output)).countP
          (fun p => p.operation == .INSERT),
        (computeWordDiff (tokenize golden) (tokenize output)).countP
          (fun p => p.operation == .DELETE),
        (computeWordDiff (tokenize golden) (tokenize output)).countP
          (fun p => p.operation == .REPLACE)⟩ := by
  have hrep := computeWordDiff_replace_cost (tokenize golden) (tokenize output)
  have ha := foldl_stats_added (computeWordDiff (tokenize golden) (tokenize output))
    ⟨0, 0, 0, 0, 0, 0⟩
  have hr := foldl_stats_removed (computeWordDiff (tokenize golden) (tokenize output))
    ⟨0, 0, 0, 0, 0, 0⟩
  have hm := foldl_stats_modified (computeWordDiff (tokenize golden) (tokenize output))
    ⟨0, 0, 0, 0, 0, 0⟩
  have he := foldl_stats_equal (computeWordDiff (tokenize golden) (tokenize output))
    ⟨0, 0, 0, 0, 0, 0⟩
  have hc := foldl_stats_totalCost (computeWordDiff (tokenize golden) (tokenize output)) hrep
    ⟨0, 0, 0, 0, 0, 0⟩
  have hpart := countP_partition (computeWordDiff (tokenize golden) (tokenize output))
  simp only [calculateDiff, calculateStats]
  simp only [ha, hr, hm, he, hc] at *
  constructor
  · rw [← hpart]
    simp
  · simp

/-- C9: for every pair of input strings, both the word-level and the
    line-level results have `diffScore` in `[0, 1]` and satisfy
    `similarity + diffScore = 1` exactly (exactly in the rational model of
    the engine's score arithmetic). -/
theorem diff_scores_unit_interval (golden output : String) :
    (0 ≤ (calculateDiff golden output).diffScore ∧
      (calculateDiff golden output).diffScore ≤ 1 ∧
      (calculateDiff golden output).similarity + (calculateDiff golden output).diffScore = 1) ∧
    (0 ≤ (calculateLineDiff golden output).diffScore ∧
      (calculateLineDiff golden output).diffScore ≤ 1 ∧
      (calculateLineDiff golden output).similarity +
        (calculateLineDiff golden output).diffScore = 1) := by
  constructor
  · have hrep := computeWordDiff_replace_cost (tokenize golden) (tokenize output)
    have ha := foldl_stats_added (computeWordDiff (tokenize golden) (tokenize output))
      ⟨0, 0, 0, 0, 0, 0⟩
    have hr := foldl_stats_removed (computeWordDiff (tokenize golden) (tokenize output))
      ⟨0, 0, 0, 0, 0, 0⟩
    have hm := foldl_stats_modified (computeWordDiff (tokenize golden) (tokenize output))
      ⟨0, 0, 0, 0, 0, 0⟩
    have he := foldl_stats_equal (computeWordDiff (tokenize golden) (tokenize output))
      ⟨0, 0, 0, 0, 0, 0⟩
    have hc := foldl_stats_totalCost (computeWordDiff (tokenize golden) (tokenize output)) hrep
      ⟨0, 0, 0, 0, 0, 0⟩
    have hpart := countP_partition (computeWordDiff (tokenize golden) (tokenize output))
    have hsum0 := sum_specOpCost_nonneg (computeWordDiff (tokenize golden) (tokenize output))
    have hsum1 := sum_specOpCost_le_length (computeWordDiff (tokenize golden) (tokenize output))
    simp only [calculateDiff, calculateStats]
    simp only [ha, hr, hm, he, hc] at *
    rw [← hpart] at hsum1
    simp only [Nat.zero_add, zero_add]
    refine ⟨?_, ?_, by ring⟩
    · split
      · norm_num
      · exact div_nonneg hsum0 (by positivity)
    · split
      · norm_num
      · rename_i htot
        rw [div_le_one (by positivity)]
        push_cast at hsum1 ⊢
        linarith
  · simp only [calculateLineDiff, calculateLineStats]
    refine ⟨?_, ?_, by ring⟩
    · split
      · norm_num
      · positivity
    · split
      · norm_num
      · rename_i htot
        rw [div_le_one (by positivity)]
        push_cast
        norm_num

/-! ### C8: REPLACE decisions in the line diff -/

/-- Specification-side record of the decisions the line backtracker takes
    (one constructor per DP operation, a REPLACE keeping both lines). -/
inductive LineDecision where
  | eq (text : String) (ln : Nat)
  | del (text : String) (ln : Nat)
  | ins (text : String) (ln : Nat)
  | rep (oldText newText : String) (oldLn newLn : Nat)
deriving DecidableEq

/-- The decision sequence of the line backtracker, in emission order. -/
def lineDecisions (g o : List String) : Nat → Nat → Nat → List LineDecision
  | 0, _, _ => []
  | fuel + 1, i, j =>
    if i = 0 && j = 0 then []
    else
      match lineOp g o i j with
      | .EQUAL => lineDecisions g o fuel (i - 1) (j - 1) ++ [.eq (g.getD (i - 1) ("")) i]
      | .DELETE => lineDecisions g o fuel (i - 1) j ++ [.del (g.getD (i - 1) ("")) i]
      | .INSERT => lineDecisions g o fuel i (j - 1) ++ [.ins (o.getD (j - 1) ("")) j]
      | .REPLACE =>
          lineDecisions g o fuel (i - 1) (j - 1) ++
            [.rep (g.getD (i - 1) ("")) (o.getD (j - 1) ("")) i j]

/-- Specification-side rendering of one decision as visual rows: a REPLACE
    becomes an INSERT row (new line) immediately followed by a DELETE row
    (old line), never a combined inline part. -/
def renderLineDecision : LineDecision → List LineDiffPart
  | .eq t n => [⟨.EQUAL, t, some n⟩]
  | .del t n => [⟨.DELETE, t, some n⟩]
  | .ins t n => [⟨.INSERT, t, some n⟩]
  | .rep ot nt ol nl => [⟨.INSERT, nt, some nl⟩, ⟨.DELETE, ot, some ol⟩]

def computeLineDecisions (g o : List String) : List LineDecision :=
  lineDecisions g o (g.length + o.length) g.length o.length

theorem backtrackLine_flatMap (g o : List String) :
    ∀ fuel i j, backtrackLine g o fuel i j =
      (lineDecisions g o fuel i j).flatMap renderLineDecision := by
  intro fuel
  induction fuel with
  | zero => intro i j; rfl
  | succ fuel ih =>
    intro i j
    rw [backtrackLine, lineDecisions]
    by_cases h0 : i = 0 && j = 0
    · simp [h0]
    · rw [if_neg (by simpa using h0), if_neg (by simpa using h0)]
      rcases lineOp g o i j <;>
        simp [List.flatMap_append, renderLineDecision, ih]

theorem backtrackLine_no_replace (g o : List String) :
    ∀ fuel i j,
      (backtrackLine g o fuel i j).countP (fun p => p.operation == .REPLACE) = 0 := by
  intro fuel
  induction fuel with
  | zero => intro i j; rfl
  | succ fuel ih =>
    intro i j
    rw [backtrackLine]
    by_cases h0 : i = 0 && j = 0
    · simp [h0]
    · rw [if_neg (by simpa using h0)]
      rcases lineOp g o i j <;>
        simp [List.countP_append, List.countP_cons, ih]

/-- C8 (amended): every REPLACE decision of the line diff is emitted as two
    separate visual rows — an INSERT row carrying the new (candidate) line
    immediately followed by a DELETE row carrying the old (reference) line,
    in that order — and never as a combined inline REPLACE part: the part
    sequence is exactly the decision sequence rendered row-wise, and it
    contains no REPLACE part. -/
theorem computeLineDiff_replace_as_rows (golden output : String) :
    computeLineDiff (golden.splitOn ("\n")) (output.splitOn ("\n")) =
      (computeLineDecisions (golden.splitOn ("\n")) (output.splitOn ("\n"))).flatMap
        renderLineDecision ∧
    (computeLineDiff (golden.splitOn ("\n")) (output.splitOn ("\n"))).countP
      (fun p => p.operation == .REPLACE) = 0 :=
  ⟨backtrackLine_flatMap _ _ _ _ _, backtrackLine_no_replace _ _ _ _ _⟩

/-- C8 (counterexample to the claimed order): replacing the single line
    `"a"` by `"b"` yields the INSERT row before the DELETE row, not a
    delete row followed by an insert row as the claim states. -/
theorem computeLineDiff_insert_before_delete :
    computeLineDiff [("a")] [("b")] =
      [⟨.INSERT, ("b"), some 1⟩, ⟨.DELETE, ("a"), some 1⟩] ∧
    computeLineDiff [("a")] [("b")] ≠
      [⟨.DELETE, ("a"), some 1⟩, ⟨.INSERT, ("b"), some 1⟩] := by
  constructor
  · decide
  · decide

/-! ### C6: the worked example of the granular similarity rule -/

/-- C6: on the spec's worked example — four top-level pairs of which two
    match exactly — `calculateJsonDiff` returns similarity `0.5` (and hence
    `diffScore = 0.5`), in accordance with the granular
    matches-over-total rule. -/
theorem calculateJsonDiff_half_example :
    (calculateJsonDiff ("\x7b\"a\":1,\"b\":2,\"c\":3,\"d\":4\x7d")
        ("\x7b\"a\":1,\"b\":2,\"c\":999,\"d\":888\x7d")).similarity = some (1 / 2) ∧
    (calculateJsonDiff ("\x7b\"a\":1,\"b\":2,\"c\":3,\"d\":4\x7d")
        ("\x7b\"a\":1,\"b\":2,\"c\":999,\"d\":888\x7d")).diffScore = some (1 / 2) := by
  constructor
  · decide
  · decide

/-! ### C3: validity flags under swapping -/

/-- C3 (amended): the validity report of `calculateJsonDiff` is
    `(isValidJson golden, isValidJson golden && isValidJson output)` — when
    the reference is invalid the candidate's flag is reported `false`
    unconditionally, so swapping the arguments does *not* merely swap the
    flags when exactly one side is valid. -/
theorem calculateJsonDiff_validity_flags (g o : String) :
    (calculateJsonDiff g o).isValidJson = (isValidJson g, isValidJson g && isValidJson o) := by
  unfold calculateJsonDiff
  rcases hg : isValidJson g <;> rcases ho : isValidJson o <;> simp

/-- C3 (counterexample to the claimed swap symmetry): with an invalid
    reference `"x"` and a valid candidate `"\x7b\x7d"`, the flags of the
    swapped call are `(true, false)`, not the swap `(false, false)` of the
    original call's flags. -/
theorem calculateJsonDiff_flags_not_swapped :
    (calculateJsonDiff ("x") ("\x7b\x7d")).isValidJson = (false, false) ∧
    (calculateJsonDiff ("\x7b\x7d") ("x")).isValidJson = (true, false) ∧
    ((calculateJsonDiff ("\x7b\x7d") ("x")).isValidJson ≠
      ((calculateJsonDiff ("x") ("\x7b\x7d")).isValidJson.2,
       (calculateJsonDiff ("x") ("\x7b\x7d")).isValidJson.1)) := by
  refine ⟨by decide, by decide, by decide⟩

/-! ### C2: the two invalid-input branches -/

theorem normalizeJson_error_of_valid (s : String) (h : isValidJson s = true) :
    (normalizeJson s).error = none := by
  unfold normalizeJson
  unfold isValidJson at h
  rcases h1 : jsonParse (jsTrim s) with _ | v
  · rcases h2 : jsonParse (extractJsonFromMarkdown s) with _ | w
    · rw [h1, h2] at h; simp at h
    · simp
  · simp

theorem normalizeJson_error_of_invalid (s : String) (h : isValidJson s = false) :
    (normalizeJson s).error = some ("JSON parsing failed") := by
  unfold normalizeJson
  unfold isValidJson at h
  rcases h1 : jsonParse (jsTrim s) with _ | v
  · rcases h2 : jsonParse (extractJsonFromMarkdown s) with _ | w
    · simp
    · rw [h1, h2] at h; simp at h
  · rw [h1] at h; simp at h

/-- C2 (amended): the two invalid-input branches of `calculateJsonDiff`,
    characterized field by field. An invalid reference yields flags
    `(false, false)`, empty-string parse errors, `NaN` score, similarity,
    `valueChanges`, `additions` and `removals` — but `structuralChanges`
    is `0`, not `NaN`. A valid reference with an invalid candidate yields
    flags `(true, false)`, a populated candidate-side parse error (and
    `none` on the reference side), the same `NaN` numeric fields, and again
    `structuralChanges = 0`. -/
theorem calculateJsonDiff_invalid_branches (g o : String) :
    (isValidJson g = false →
      calculateJsonDiff g o =
        ⟨none, none, "", g, o, (false, false), (some (""), some ("")),
          ⟨some 0, none, none, none⟩⟩) ∧
    (isValidJson g = true → isValidJson o = false →
      calculateJsonDiff g o =
        ⟨none, none, "", g, o, (true, false),
          (none, some ("JSON parsing failed")), ⟨some 0, none, none, none⟩⟩) := by
  constructor
  · intro hg
    unfold calculateJsonDiff
    rw [hg]
    simp
  · intro hg ho
    unfold calculateJsonDiff
    rw [hg, ho]
    simp [normalizeJson_error_of_valid g hg, normalizeJson_error_of_invalid o ho]

/-- C2 witness: both branches of the characterization at concrete inputs. -/
theorem calculateJsonDiff_invalid_branches_witness :
    calculateJsonDiff ("x") ("\x7b\x7d") =
      ⟨none, none, "", ("x"), ("\x7b\x7d"), (false, false), (some (""), some ("")),
        ⟨some 0, none, none, none⟩⟩ ∧
    calculateJsonDiff ("\x7b\x7d") ("x") =
      ⟨none, none, "", ("\x7b\x7d"), ("x"), (true, false),
        (none, some ("JSON parsing failed")), ⟨some 0, none, none, none⟩⟩ :=
  ⟨(calculateJsonDiff_invalid_branches ("x") ("\x7b\x7d")).1 (by decide),
   (calculateJsonDiff_invalid_branches ("\x7b\x7d") ("x")).2 (by decide) (by decide)⟩

/-- C2 (counterexample to "NaN-valued numeric fields"): with an invalid
    reference, the numeric field `changes.structuralChanges` is `0`, not
    `NaN` — only the other numeric fields are `NaN`-valued. -/
theorem calculateJsonDiff_structuralChanges_not_nan :
    (calculateJsonDiff ("x") ("y")).isValidJson = (false, false) ∧
    (calculateJsonDiff ("x") ("y")).changes.structuralChanges = some 0 ∧
    (calculateJsonDiff ("x") ("y")).changes.structuralChanges ≠ none := by
  refine ⟨by decide, by decide, by decide⟩

/-! ### C1: pure structural similarity when both sides are valid -/

/-- C1 (amended): when both inputs are valid JSON *and* both parsed
    canonical trees are JS-truthy, the similarity is exactly the pure
    structural similarity of the two canonicalized trees (deepEqual
    short-circuit to `1`, else `calculateObjectSimilarity`), with no
    blending, and `diffScore = 1 - similarity`. -/
theorem calculateJsonDiff_pure_structural (g o : String)
    (hg : isValidJson g = true) (ho : isValidJson o = true)
    (htg : optTruthy (normalizeJson g).parsed = true)
    (hto : optTruthy (normalizeJson o).parsed = true) :
    (calculateJsonDiff g o).similarity =
      some (calculateJsonStructuralSimilarity
        ((normalizeJson g).parsed.getD .null) ((normalizeJson o).parsed.getD .null)) ∧
    (calculateJsonDiff g o).diffScore =
      some (1 - calculateJsonStructuralSimilarity
        ((normalizeJson g).parsed.getD .null) ((normalizeJson o).parsed.getD .null)) := by
  unfold calculateJsonDiff
  rw [hg, ho]
  simp [htg, hto]

/-- C1 witness: the amended theorem applied at two concrete valid,
    truthy JSON inputs. -/
theorem calculateJsonDiff_pure_structural_witness :
    (calculateJsonDiff ("\x7b\"a\":1\x7d") ("\x7b\"a\":2\x7d")).similarity =
      some (calculateJsonStructuralSimilarity
        ((normalizeJson ("\x7b\"a\":1\x7d")).parsed.getD .null)
        ((normalizeJson ("\x7b\"a\":2\x7d")).parsed.getD .null)) ∧
    (calculateJsonDiff ("\x7b\"a\":1\x7d") ("\x7b\"a\":2\x7d")).diffScore =
      some (1 - calculateJsonStructuralSimilarity
        ((normalizeJson ("\x7b\"a\":1\x7d")).parsed.getD .null)
        ((normalizeJson ("\x7b\"a\":2\x7d")).parsed.getD .null)) :=
  calculateJsonDiff_pure_structural ("\x7b\"a\":1\x7d") ("\x7b\"a\":2\x7d")
    (by decide) (by decide) (by decide) (by decide)

/-- C1 (counterexample to the unconditional claim): both `"0"` and `"0"`
    are valid JSON whose canonical trees are equal — the pure structural
    similarity is `1` — yet `calculateJsonDiff` reports similarity `0`,
    because the falsy parsed value `0` fails the JS truthiness guard. -/
theorem calculateJsonDiff_falsy_guard :
    isValidJson ("0") = true ∧
    calculateJsonStructuralSimilarity ((normalizeJson ("0")).parsed.getD .null)
      ((normalizeJson ("0")).parsed.getD .null) = 1 ∧
    (calculateJsonDiff ("0") ("0")).similarity = some 0 := by
  refine ⟨by decide, by decide, by decide⟩

/-! ### C5: permutation invariance of heuristic array sorting -/

/-- Shape test used to state the claim's "array of objects": a plain
    (non-array) object node. -/
def isObjLiteral : Json → Bool
  | .obj _ => true
  | _ => false

/-- C5 (amended): for an array of objects each carrying an `id` key, any
    permutation yields the same canonicalized tree — provided the extracted
    string sort keys of the normalized elements are pairwise distinct.
    (With duplicate keys the stable sort preserves the distinct input
    orders instead; see the counterexample.) -/
theorem normalizeJsonObject_perm_invariant (es es' : List Json)
    (hperm : es.Perm es')
    (hobj : ∀ e ∈ es, isObjLiteral e = true ∧ jsHasKey e ("id") = true)
    (hnd : ((es.map normalizeJsonObject).map arrSortKey).Nodup) :
    normalizeJsonObject (Json.arr es) = normalizeJsonObject (Json.arr es') := by
  rw [normalizeJsonObject_arr, normalizeJsonObject_arr]
  have hpm : (es.map normalizeJsonObject).Perm (es'.map normalizeJsonObject) :=
    hperm.map _
  have hguard : ∀ e ∈ es, isJsObject (normalizeJsonObject e) = true ∧
      jsHasKey (normalizeJsonObject e) ("id") = true := by
    intro e he
    obtain ⟨h1, h2⟩ := hobj e he
    cases e with
    | obj ms =>
      refine ⟨isJsObject_normalizeJsonObject_obj ms, ?_⟩
      rw [jsHasKey_normalizeJsonObject_obj]
      exact h2
    | null => simp [isObjLiteral] at h1
    | bool b => simp [isObjLiteral] at h1
    | num n => simp [isObjLiteral] at h1
    | str s => simp [isObjLiteral] at h1
    | arr xs => simp [isObjLiteral] at h1
  cases hes : es.map normalizeJsonObject with
  | nil =>
    have hes0 : es = [] := by
      cases es with
      | nil => rfl
      | cons x xs => simp at hes
    subst hes0
    have hes0' : es' = [] := hperm.symm.eq_nil
    rw [hes0']
    rfl
  | cons f rest =>
    cases hes' : es'.map normalizeJsonObject with
    | nil =>
      rw [hes, hes'] at hpm
      exact absurd hpm.eq_nil (by simp)
    | cons f' rest' =>
      have hf : f ∈ es.map normalizeJsonObject := by rw [hes]; simp
      obtain ⟨e0, he0, hfe⟩ := List.mem_map.mp hf
      obtain ⟨hg1, hg2⟩ := hguard e0 he0
      have hgf : (isJsObject f &&
          (jsHasKey f ("id") || jsHasKey f ("name") || jsHasKey f ("key"))) = true := by
        rw [← hfe]
        simp [hg1, hg2]
      have hf' : f' ∈ es'.map normalizeJsonObject := by rw [hes']; simp
      obtain ⟨e1, he1, hfe'⟩ := List.mem_map.mp hf'
      obtain ⟨hg1', hg2'⟩ := hguard e1 (hperm.symm.subset he1)
      have hgf' : (isJsObject f' &&
          (jsHasKey f' ("id") || jsHasKey f' ("name") || jsHasKey f' ("key"))) = true := by
        rw [← hfe']
        simp [hg1', hg2']
      simp only [hgf, hgf', if_true]
      rw [← hes, ← hes']
      rw [insertionSort_eq_of_perm_nodup _ _ hpm hnd]

/-- C5 witness: two distinct-`id` objects swapped — both orders normalize
    to the same sorted array. -/
theorem normalizeJsonObject_perm_invariant_witness :
    normalizeJsonObject (Json.arr
        [Json.obj [(("id"), Json.str ("b"))], Json.obj [(("id"), Json.str ("a"))]]) =
      normalizeJsonObject (Json.arr
        [Json.obj [(("id"), Json.str ("a"))], Json.obj [(("id"), Json.str ("b"))]]) :=
  normalizeJsonObject_perm_invariant _ _
    (List.Perm.swap (Json.obj [(("id"), Json.str ("a"))])
      (Json.obj [(("id"), Json.str ("b"))]) [])
    (by decide) (by decide)

/-- Observation used by the C5 counterexample: the integer under key `x`
    of element `0` of a parsed tree (0 when absent). -/
def c5obs (v : Option Json) : Int :=
  match jsGet ((jsGet (v.getD .null) ("0")).getD .null) ("x") with
  | some (.num n) => n
  | _ => 0

/-- C5 (counterexample to the unconditional claim): two permutations of an
    array of objects that all carry the *same* `id` are canonicalized to
    different outputs — the stable sort preserves each input order, so the
    element at index 0 still holds `x = 1` in one order and `x = 2` in the
    other. -/
theorem normalizeJson_duplicate_id_not_invariant :
    isValidJson ("[\x7b\"id\":\"a\",\"x\":1\x7d,\x7b\"id\":\"a\",\"x\":2\x7d]") = true ∧
    isValidJson ("[\x7b\"id\":\"a\",\"x\":2\x7d,\x7b\"id\":\"a\",\"x\":1\x7d]") = true ∧
    c5obs (normalizeJson ("[\x7b\"id\":\"a\",\"x\":1\x7d,\x7b\"id\":\"a\",\"x\":2\x7d]")).parsed = 1 ∧
    c5obs (normalizeJson ("[\x7b\"id\":\"a\",\"x\":2\x7d,\x7b\"id\":\"a\",\"x\":1\x7d]")).parsed = 2 ∧
    (normalizeJson ("[\x7b\"id\":\"a\",\"x\":1\x7d,\x7b\"id\":\"a\",\"x\":2\x7d]")).parsed ≠
      (normalizeJson ("[\x7b\"id\":\"a\",\"x\":2\x7d,\x7b\"id\":\"a\",\"x\":1\x7d]")).parsed := by
  refine ⟨by decide, by decide, by decide, by decide,
    fun h => absurd (congrArg c5obs h) (by decide)⟩

/-! ### C4 groundwork: the printer round-trips through the parser -/

/-- `true` when the list does not begin with a decimal digit (so a printed
    number placed before it cannot be extended). -/
def headNotDigit : List Char → Bool
  | [] => true
  | c :: _ => !decDigit c

theorem skipWs_append_of_ws (pre l : List Char) (h : ∀ c ∈ pre, jsonWs c = true) :
    skipWs (pre ++ l) = skipWs l := by
  induction pre with
  | nil => rfl
  | cons c cs ih =>
    simp only [List.cons_append, skipWs]
    rw [h c (by simp)]
    simp only [if_true]
    exact ih (fun c hc => h c (by simp [hc]))

theorem skipWs_cons_not_ws {c : Char} (cs : List Char) (h : jsonWs c = false) :
    skipWs (c :: cs) = c :: cs := by
  simp [skipWs, h]

theorem indentChars_ws (n : Nat) : ∀ c ∈ indentChars n, jsonWs c = true := by
  intro c hc
  have := List.eq_of_mem_replicate hc
  subst this
  decide

theorem natChars_ne_nil (n : Nat) : natChars n ≠ [] := by
  rw [natChars]
  split
  · simp
  · simp

theorem decDigit_decDigitChar {k : Nat} (h : k < 10) : decDigit (decDigitChar k) = true := by
  interval_cases k <;> decide

theorem toNat_decDigitChar {k : Nat} (h : k < 10) : (decDigitChar k).toNat = 48 + k := by
  interval_cases k <;> decide

theorem natChars_all_digits (n : Nat) : ∀ c ∈ natChars n, decDigit c = true := by
  induction n using Nat.strong_induction_on with
  | _ n ih =>
    rw [natChars]
    split
    · intro c hc
      simp at hc
      subst hc
      exact decDigit_decDigitChar (by omega)
    · intro c hc
      rcases List.mem_append.mp hc with h | h
      · exact ih (n / 10) (Nat.div_lt_self (by omega) (by omega)) c h
      · simp at h
        subst h
        exact decDigit_decDigitChar (Nat.mod_lt _ (by omega))

theorem natChars_head_ne_zero :
    ∀ n : Nat, n ≠ 0 → ∀ ds, natChars n ≠ ('0') :: ds := by
  intro n
  induction n using Nat.strong_induction_on with
  | _ n ih =>
    intro hn ds
    rw [natChars]
    split
    · intro h
      simp at h
      have h0 : (decDigitChar n).toNat = ('0').toNat := by rw [h.1]
      rw [toNat_decDigitChar (by omega)] at h0
      have h1 : ('0').toNat = 48 := by decide
      omega
    · intro h
      rcases hcons : natChars (n / 10) with _ | ⟨d, rest⟩
      · exact natChars_ne_nil _ hcons
      · rw [hcons] at h
        simp at h
        have hne : n / 10 ≠ 0 := by omega
        rw [h.1] at hcons
        exact ih (n / 10) (Nat.div_lt_self (by omega) (by omega)) hne rest hcons

theorem digitRunVal_natChars_gen (n : Nat) :
    ∀ a : Nat, (natChars n).foldl (fun a c => a * 10 + (c.toNat - 48)) a =
      a * 10 ^ (natChars n).length + n := by
  induction n using Nat.strong_induction_on with
  | _ n ih =>
    intro a
    rw [natChars]
    split
    · simp only [List.foldl, List.length_cons, List.length_nil]
      rw [toNat_decDigitChar (by omega)]
      simp
    · rw [List.foldl_append, List.length_append]
      rw [ih (n / 10) (Nat.div_lt_self (by omega) (by omega)) a]
      simp only [List.foldl, List.length_cons, List.length_nil]
      rw [toNat_decDigitChar (Nat.mod_lt _ (by omega))]
      rw [pow_succ]
      have hdm := Nat.div_add_mod n 10
      have : 48 + n % 10 - 48 = n % 10 := by omega
      rw [this]
      ring_nf
      omega

theorem digitRunVal_natChars (n : Nat) : digitRunVal (natChars n) = n := by
  unfold digitRunVal
  rw [digitRunVal_natChars_gen n 0]
  simp

theorem takeDigitRun_append (ds rest : List Char)
    (hds : ∀ c ∈ ds, decDigit c = true) (hr : headNotDigit rest = true) :
    takeDigitRun (ds ++ rest) = (ds, rest) := by
  induction ds with
  | nil =>
    cases rest with
    | nil => rfl
    | cons c cs =>
      simp only [headNotDigit, Bool.not_eq_true'] at hr
      simp [takeDigitRun, hr]
  | cons d ds ih =>
    simp only [List.cons_append, takeDigitRun]
    rw [hds d (by simp)]
    simp only [if_true]
    simp only [List.append_eq]
    rw [ih (fun c hc => hds c (by simp [hc]))]

theorem parseNatPart_natChars (n : Nat) (rest : List Char) (hr : headNotDigit rest = true) :
    parseNatPart (natChars n ++ rest) = some (n, rest) := by
  have htdr := takeDigitRun_append (natChars n) rest (natChars_all_digits n) hr
  have hv := digitRunVal_natChars n
  rcases hnc : natChars n with _ | ⟨d, ds⟩
  · exact absurd hnc (natChars_ne_nil n)
  · rw [hnc] at htdr hv
    simp only [parseNatPart, htdr]
    by_cases h0 : n = 0
    · subst h0
      have h00 : natChars 0 = [('0')] := by
        rw [natChars]
        simp
        rfl
      rw [h00] at hnc
      have hd : d = ('0') := by injection hnc with h1 h2; exact h1.symm
      have hds : ds = [] := by injection hnc with h1 h2; exact h2.symm
      subst hd
      subst hds
      simp
      exact hv
    · have hd : d ≠ ('0') := by
        intro h
        rw [h] at hnc
        exact natChars_head_ne_zero n h0 ds hnc
      simp [hd]
      exact hv

theorem parseNumber_neg_arm (l : List Char) :
    parseNumber (('-') :: l) = (parseNatPart l).map (fun p => (-(p.1 : Int), p.2)) := rfl

theorem parseNumber_digit_arm (c : Char) (l : List Char) (hc : c ≠ ('-')) :
    parseNumber (c :: l) = (parseNatPart (c :: l)).map (fun p => ((p.1 : Int), p.2)) := by
  unfold parseNumber
  split
  · rename_i heq
    injection heq with h1 h2
    exact absurd h1 hc
  · rfl

theorem parseNumber_intChars (i : Int) (rest : List Char) (hr : headNotDigit rest = true) :
    parseNumber (intChars i ++ rest) = some (i, rest) := by
  unfold intChars
  by_cases hneg : i < 0
  · simp only [if_pos hneg, List.cons_append]
    rw [parseNumber_neg_arm, parseNatPart_natChars _ _ hr]
    simp only [Option.map, Option.some.injEq, Prod.mk.injEq]
    exact ⟨by omega, trivial⟩
  · simp only [if_neg hneg]
    rcases hnc : natChars i.natAbs with _ | ⟨d, ds⟩
    · exact absurd hnc (natChars_ne_nil _)
    · have hd : decDigit d = true := natChars_all_digits _ d (by rw [hnc]; simp)
      have hdm : d ≠ ('-') := by
        intro h
        rw [h] at hd
        exact absurd hd (by decide)
      rw [List.cons_append, parseNumber_digit_arm d _ hdm, ← List.cons_append, ← hnc,
        parseNatPart_natChars _ _ hr]
      simp only [Option.map, Option.some.injEq, Prod.mk.injEq]
      exact ⟨by omega, trivial⟩

theorem hexNibble_hexLower {k : Nat} (h : k < 16) : hexNibble (hexLower k) = some k := by
  interval_cases k <;> decide

theorem parseStrBody_quote (acc rest : List Char) :
    parseStrBody acc (('"') :: rest) = some (⟨acc.reverse⟩, rest) := by
  conv_lhs => rw [parseStrBody.eq_def]
  simp [decodeEsc]

theorem parseStrBody_esc_quote (acc tail : List Char) :
    parseStrBody acc (('\\') :: ('"') :: tail) = parseStrBody (('"') :: acc) tail := by
  conv_lhs => rw [parseStrBody.eq_def]
  simp [decodeEsc]

theorem parseStrBody_esc_backslash (acc tail : List Char) :
    parseStrBody acc (('\\') :: ('\\') :: tail) = parseStrBody (('\\') :: acc) tail := by
  conv_lhs => rw [parseStrBody.eq_def]
  simp [decodeEsc]

theorem parseStrBody_esc_b (acc tail : List Char) :
    parseStrBody acc (('\\') :: ('b') :: tail) = parseStrBody (('\x08') :: acc) tail := by
  conv_lhs => rw [parseStrBody.eq_def]
  simp [decodeEsc]

theorem parseStrBody_esc_f (acc tail : List Char) :
    parseStrBody acc (('\\') :: ('f') :: tail) = parseStrBody (('\x0c') :: acc) tail := by
  conv_lhs => rw [parseStrBody.eq_def]
  simp [decodeEsc]

theorem parseStrBody_esc_n (acc tail : List Char) :
    parseStrBody acc (('\\') :: ('n') :: tail) = parseStrBody (('\n') :: acc) tail := by
  conv_lhs => rw [parseStrBody.eq_def]
  simp [decodeEsc]

theorem parseStrBody_esc_r (acc tail : List Char) :
    parseStrBody acc (('\\') :: ('r') :: tail) = parseStrBody (('\r') :: acc) tail := by
  conv_lhs => rw [parseStrBody.eq_def]
  simp [decodeEsc]

theorem parseStrBody_esc_t (acc tail : List Char) :
    parseStrBody acc (('\\') :: ('t') :: tail) = parseStrBody (('\t') :: acc) tail := by
  conv_lhs => rw [parseStrBody.eq_def]
  simp [decodeEsc]

theorem parseStrBody_esc_u (acc tail : List Char) (x y : Char) :
    parseStrBody acc (('\\') :: ('u') :: ('0') :: ('0') :: x :: y :: tail) =
      (match hexNibble ('0'), hexNibble ('0'), hexNibble x, hexNibble y with
       | some va, some vb, some vc, some vd =>
           parseStrBody (Char.ofNat (((va * 16 + vb) * 16 + vc) * 16 + vd) :: acc) tail
       | _, _, _, _ => none) := by
  conv_lhs => rw [parseStrBody.eq_def]
  simp [decodeEsc]

theorem parseStrBody_char (acc : List Char) (c : Char) (rest : List Char)
    (h1 : c ≠ ('"')) (h2 : c ≠ ('\\')) (h8 : ¬ c.toNat < 32) :
    parseStrBody acc (c :: rest) = parseStrBody (c :: acc) rest := by
  rw [parseStrBody.eq_def]
  simp [h1, h2, h8]

/-- The escaped body of a printed string parses back to the original
    characters, continuing with whatever follows the closing quote. -/
theorem parseStrBody_roundtrip :
    ∀ (cs acc rest : List Char),
      parseStrBody acc (cs.flatMap escJsonChar ++ ('"') :: rest) =
        some (⟨acc.reverse ++ cs⟩, rest) := by
  intro cs
  induction cs with
  | nil =>
    intro acc rest
    simp only [List.flatMap_nil, List.nil_append]
    rw [parseStrBody_quote]
    simp
  | cons c cs ih =>
    intro acc rest
    simp only [List.flatMap_cons, List.append_assoc]
    by_cases h1 : c = ('"')
    · subst h1
      rw [show escJsonChar ('"') = ['\\', '"'] from by decide]
      simp only [List.cons_append]
      rw [parseStrBody_esc_quote, List.nil_append, ih]
      simp
    · by_cases h2 : c = ('\\')
      · subst h2
        rw [show escJsonChar ('\\') = ['\\', '\\'] from by decide]
        simp only [List.cons_append]
        rw [parseStrBody_esc_backslash, List.nil_append, ih]
        simp
      · by_cases h3 : c = ('\x08')
        · subst h3
          rw [show escJsonChar ('\x08') = ['\\', 'b'] from by decide]
          simp only [List.cons_append]
          rw [parseStrBody_esc_b, List.nil_append, ih]
          simp
        · by_cases h4 : c = ('\x0c')
          · subst h4
            rw [show escJsonChar ('\x0c') = ['\\', 'f'] from by decide]
            simp only [List.cons_append]
            rw [parseStrBody_esc_f, List.nil_append, ih]
            simp
          · by_cases h5 : c = ('\n')
            · subst h5
              rw [show escJsonChar ('\n') = ['\\', 'n'] from by decide]
              simp only [List.cons_append]
              rw [parseStrBody_esc_n, List.nil_append, ih]
              simp
            · by_cases h6 : c = ('\r')
              · subst h6
                rw [show escJsonChar ('\r') = ['\\', 'r'] from by decide]
                simp only [List.cons_append]
                rw [parseStrBody_esc_r, List.nil_append, ih]
                simp
              · by_cases h7 : c = ('\t')
                · subst h7
                  rw [show escJsonChar ('\t') = ['\\', 't'] from by decide]
                  simp only [List.cons_append]
                  rw [parseStrBody_esc_t, List.nil_append, ih]
                  simp
                · by_cases h8 : c.toNat < 32
                  · have hdiv : c.toNat / 16 < 16 := by omega
                    have hmod : c.toNat % 16 < 16 := by omega
                    simp only [escJsonChar, if_neg h1, if_neg h2, if_neg h3, if_neg h4,
                      if_neg h5, if_neg h6, if_neg h7, if_pos h8, List.cons_append]
                    rw [parseStrBody_esc_u]
                    rw [show hexNibble ('0') = some 0 from by decide,
                      hexNibble_hexLower hdiv, hexNibble_hexLower hmod]
                    simp only []
                    have hc2 : ((0 * 16 + 0) * 16 + c.toNat / 16) * 16 + c.toNat % 16 =
                        c.toNat := by omega
                    rw [hc2, Char.ofNat_toNat, List.nil_append, ih]
                    simp
                  · simp only [escJsonChar, if_neg h1, if_neg h2, if_neg h3, if_neg h4,
                      if_neg h5, if_neg h6, if_neg h7, if_neg h8, List.cons_append,
                      List.nil_append]
                    rw [parseStrBody_char _ _ _ h1 h2 h8, ih]
                    simp

/-- The printed form of the elements after the first, as laid out by
    `printElems`. -/
def elemsTail (ind : Nat) : List Json → List Char
  | [] => []
  | e :: es =>
      (',') :: ('\n') :: (indentChars (ind + 2) ++ printJson (ind + 2) e) ++ elemsTail ind es

/-- The printed form of the members after the first, as laid out by
    `printMembs`. -/
def membsTail (ind : Nat) : List (String × Json) → List Char
  | [] => []
  | m :: ms =>
      (',') :: ('\n') ::
        (indentChars (ind + 2) ++ (quoteStr m.1 ++ (':') :: (' ') :: printJson (ind + 2) m.2))
        ++ membsTail ind ms

theorem printElems_eq (ind : Nat) (e : Json) :
    ∀ es, printElems ind e es =
      indentChars (ind + 2) ++ printJson (ind + 2) e ++ elemsTail ind es := by
  intro es
  induction es generalizing e with
  | nil => rw [printElems]; simp [elemsTail]
  | cons e2 es ih =>
    rw [printElems]
    rw [ih e2]
    simp [elemsTail]

theorem printMembs_eq (ind : Nat) (m : String × Json) :
    ∀ ms, printMembs ind m ms =
      indentChars (ind + 2) ++ (quoteStr m.1 ++ (':') :: (' ') :: printJson (ind + 2) m.2)
        ++ membsTail ind ms := by
  intro ms
  induction ms generalizing m with
  | nil => rw [printMembs]; simp [membsTail]
  | cons m2 ms ih =>
    rw [printMembs]
    rw [ih m2]
    simp [membsTail]

theorem jsWs_of_jsonWs {c : Char} (h : jsonWs c = true) : jsWs c = true := by
  simp [jsonWs] at h
  simp [jsWs]
  tauto

theorem jsonWs_of_jsWs_false {c : Char} (h : jsWs c = false) : jsonWs c = false := by
  by_contra hc
  simp only [Bool.not_eq_false] at hc
  rw [jsWs_of_jsonWs hc] at h
  exact absurd h (by simp)

theorem decDigit_toNat {c : Char} (h : decDigit c = true) :
    48 ≤ c.toNat ∧ c.toNat ≤ 57 := by
  simp [decDigit, Char.le_def] at h
  exact h

/-- Every printed value starts with a structurally informative character:
    not whitespace, not a closing bracket, not a separator. -/
theorem printJson_head_spec (ind : Nat) (t : Json) :
    ∃ c cs, printJson ind t = c :: cs ∧ jsWs c = false ∧ c ≠ (']') ∧ c ≠ ('\x7d') ∧
      c ≠ (',') := by
  cases t with
  | null => exact ⟨('n'), _, by rw [printJson], by decide, by decide, by decide, by decide⟩
  | bool b =>
    cases b with
    | true => exact ⟨('t'), _, by rw [printJson], by decide, by decide, by decide, by decide⟩
    | false => exact ⟨('f'), _, by rw [printJson], by decide, by decide, by decide, by decide⟩
  | num i =>
    rw [printJson]
    unfold intChars
    by_cases hneg : i < 0
    · exact ⟨('-'), _, by rw [if_pos hneg], by decide, by decide, by decide, by decide⟩
    · rw [if_neg hneg]
      rcases hnc : natChars i.natAbs with _ | ⟨d, ds⟩
      · exact absurd hnc (natChars_ne_nil _)
      · have hd : decDigit d = true := natChars_all_digits _ d (by rw [hnc]; simp)
        have ht := decDigit_toNat hd
        refine ⟨d, ds, rfl, ?_, ?_, ?_, ?_⟩
        · by_contra hc
          simp only [Bool.not_eq_false] at hc
          simp [jsWs] at hc
          rcases hc with ((((h1 | h1) | h1) | h1) | h1) | h1 <;>
            (subst h1; revert ht; decide)
        · intro he; subst he; exact absurd ht (by decide)
        · intro he; subst he; exact absurd ht (by decide)
        · intro he; subst he; exact absurd ht (by decide)
  | str s => exact ⟨('"'), _, by rw [printJson]; rfl, by decide, by decide, by decide, by decide⟩
  | arr es =>
    cases es with
    | nil => exact ⟨('['), _, by rw [printJson], by decide, by decide, by decide, by decide⟩
    | cons e es =>
      exact ⟨('['), _, by rw [printJson], by decide, by decide, by decide, by decide⟩
  | obj ms =>
    cases ms with
    | nil => exact ⟨('\x7b'), _, by rw [printJson], by decide, by decide, by decide, by decide⟩
    | cons m ms =>
      exact ⟨('\x7b'), _, by rw [printJson], by decide, by decide, by decide, by decide⟩

theorem jsWs_of_digit {c : Char} (h : decDigit c = true) : jsWs c = false := by
  have ht := decDigit_toNat h
  by_contra hc
  simp only [Bool.not_eq_false] at hc
  simp [jsWs] at hc
  rcases hc with ((((h1 | h1) | h1) | h1) | h1) | h1 <;> (subst h1; revert ht; decide)

/-- Every printed value ends with a non-whitespace character. -/
theorem printJson_last_spec (ind : Nat) (t : Json) :
    ∃ c, (printJson ind t).getLast? = some c ∧ jsWs c = false := by
  cases t with
  | null => exact ⟨('l'), by rw [printJson]; decide, by decide⟩
  | bool b =>
    cases b with
    | true => exact ⟨('e'), by rw [printJson]; decide, by decide⟩
    | false => exact ⟨('e'), by rw [printJson]; decide, by decide⟩
  | num i =>
    rw [printJson]
    unfold intChars
    have hlast : ∀ c, (natChars i.natAbs).getLast? = some c → jsWs c = false := by
      intro c hc
      exact jsWs_of_digit (natChars_all_digits _ c (List.mem_of_mem_getLast? hc))
    rcases hgl : (natChars i.natAbs).getLast? with _ | c
    · rcases hnc : natChars i.natAbs with _ | ⟨d, ds⟩
      · exact absurd hnc (natChars_ne_nil _)
      · rw [hnc] at hgl
        simp at hgl
    · by_cases hneg : i < 0
      · refine ⟨c, ?_, hlast c hgl⟩
        rw [if_pos hneg, List.getLast?_cons]
        simp [hgl]
      · exact ⟨c, by rw [if_neg hneg]; exact hgl, hlast c hgl⟩
  | str s =>
    refine ⟨('"'), ?_, by decide⟩
    rw [printJson]
    unfold quoteStr
    rw [List.getLast?_cons]
    have h2 : (s.data.flatMap escJsonChar ++ [('"')]).getLast? = some ('"') := by
      rw [List.getLast?_append_of_ne_nil _ (by simp)]
      rfl
    simp [h2]
  | arr es =>
    cases es with
    | nil => exact ⟨(']'), by rw [printJson]; decide, by decide⟩
    | cons e es =>
      refine ⟨(']'), ?_, by decide⟩
      rw [printJson]
      rw [List.getLast?_cons, List.getLast?_cons]
      have h2 : (printElems ind e es ++ ('\n') :: (indentChars ind ++ [(']')])).getLast? =
          some (']') := by
        rw [List.getLast?_append_of_ne_nil _ (by simp), List.getLast?_cons,
          List.getLast?_append_of_ne_nil _ (by simp)]
        simp
      simp [h2]
  | obj ms =>
    cases ms with
    | nil => exact ⟨('\x7d'), by rw [printJson]; decide, by decide⟩
    | cons m ms =>
      refine ⟨('\x7d'), ?_, by decide⟩
      rw [printJson]
      rw [List.getLast?_cons, List.getLast?_cons]
      have h2 : (printMembs ind m ms ++ ('\n') :: (indentChars ind ++ [('\x7d')])).getLast? =
          some ('\x7d') := by
        rw [List.getLast?_append_of_ne_nil _ (by simp), List.getLast?_cons,
          List.getLast?_append_of_ne_nil _ (by simp)]
        simp
      simp [h2]

theorem dropTrailingWs_of_last {l : List Char} {c : Char} (hl : l.getLast? = some c)
    (hc : jsWs c = false) : dropTrailingWs l = l := by
  unfold dropTrailingWs
  rcases hrev : l.reverse with _ | ⟨d, t⟩
  · simp at hrev
    subst hrev
    rfl
  · have hd : d = c := by
      have := List.head?_reverse l
      rw [hrev] at this
      simp at this
      rw [hl] at this
      injection this
    subst hd
    rw [List.dropWhile_cons_of_neg (by simp [hc])]
    rw [← hrev, List.reverse_reverse]

/-- `jsTrim` is the identity on printed output. -/
theorem jsTrim_printJson (t : Json) :
    jsTrim (⟨printJson 0 t⟩ : String) = (⟨printJson 0 t⟩ : String) := by
  unfold jsTrim
  obtain ⟨c, cs, heq, hws, _, _, _⟩ := printJson_head_spec 0 t
  obtain ⟨cl, hcl, hclws⟩ := printJson_last_spec 0 t
  congr 1
  show dropTrailingWs ((printJson 0 t).dropWhile jsWs) = printJson 0 t
  rw [heq, List.dropWhile_cons_of_neg (by simp [hws]), ← heq]
  exact dropTrailingWs_of_last hcl hclws

theorem insertMember_not_mem (acc : List (String × Json)) (k : String) (v : Json)
    (h : ∀ m ∈ acc, m.1 ≠ k) : insertMember acc k v = acc ++ [(k, v)] := by
  unfold insertMember
  rw [if_neg]
  simp only [List.any_eq_true, not_exists]
  intro m
  intro hc
  exact absurd hc.2 (by simpa using h m hc.1)

/-- On members with pairwise-distinct keys, the duplicate-collapsing fold is
    the identity. -/
theorem collapseMembers_self (ms : List (String × Json))
    (h : (ms.map Prod.fst).Nodup) : collapseMembers ms = ms := by
  suffices haux : ∀ (ms acc : List (String × Json)),
      ((acc ++ ms).map Prod.fst).Nodup →
      ms.foldl (fun acc m => insertMember acc m.1 m.2) acc = acc ++ ms by
    have := haux ms [] (by simpa using h)
    simpa [collapseMembers] using this
  intro ms
  induction ms with
  | nil =>
    intro acc _
    simp
  | cons m ms ih =>
    intro acc h
    obtain ⟨k, v⟩ := m
    simp only [List.foldl_cons]
    rw [insertMember_not_mem]
    · rw [ih (acc ++ [(k, v)]) (by simpa using h)]
      simp
    · intro m2 hm2 hc
      simp only [List.map_append, List.map_cons] at h
      have hknd := (List.nodup_append.mp h).2.2
      have hk1 : k ∈ acc.map Prod.fst := by
        rw [← hc]
        exact List.mem_map_of_mem _ hm2
      have hk2 : k ∈ (k, v).fst :: ms.map Prod.fst := by simp
      exact hknd hk1 hk2

theorem wfJsonL_iff (es : List Json) :
    wfJsonL es = true ↔ ∀ e ∈ es, wfJson e = true := by
  induction es with
  | nil => simp [wfJsonL]
  | cons e es ih => simp [wfJsonL, ih]

theorem wfJsonM_iff (ms : List (String × Json)) :
    wfJsonM ms = true ↔ ∀ m ∈ ms, wfJson m.2 = true := by
  induction ms with
  | nil => simp [wfJsonM]
  | cons m ms ih => simp [wfJsonM, ih]

theorem insertMember_keys_nodup (acc : List (String × Json)) (k : String) (v : Json)
    (h : (acc.map Prod.fst).Nodup) : ((insertMember acc k v).map Prod.fst).Nodup := by
  unfold insertMember
  split
  · have heq : (acc.map (fun m => if m.1 = k then (k, v) else m)).map Prod.fst =
        acc.map Prod.fst := by
      rw [List.map_map]
      apply List.map_congr_left
      intro m _
      by_cases hm : m.1 = k
      · simp [hm]
      · simp [hm]
    rw [heq]
    exact h
  · rename_i hany
    rw [List.map_append]
    rw [List.nodup_append]
    refine ⟨h, by simp, ?_⟩
    intro a ha
    simp only [List.map_cons, List.map_nil, List.mem_singleton]
    intro hc
    subst hc
    apply hany
    simp only [List.any_eq_true]
    obtain ⟨m, hm, hmk⟩ := List.mem_map.mp ha
    exact ⟨m, hm, by simpa using hmk⟩

theorem insertMember_wfM (acc : List (String × Json)) (k : String) (v : Json)
    (ha : wfJsonM acc = true) (hv : wfJson v = true) :
    wfJsonM (insertMember acc k v) = true := by
  rw [wfJsonM_iff]
  unfold insertMember
  split
  · intro m hm
    obtain ⟨m0, hm0, hmap⟩ := List.mem_map.mp hm
    by_cases h0 : m0.1 = k
    · rw [if_pos h0] at hmap
      rw [← hmap]
      exact hv
    · rw [if_neg h0] at hmap
      rw [← hmap]
      exact (wfJsonM_iff acc).mp ha m0 hm0
  · intro m hm
    rcases List.mem_append.mp hm with h1 | h1
    · exact (wfJsonM_iff acc).mp ha m h1
    · simp at h1
      rw [h1]
      exact hv

theorem collapseMembers_aux (ms : List (String × Json)) :
    ∀ acc, (acc.map Prod.fst).Nodup → wfJsonM acc = true → wfJsonM ms = true →
      ((ms.foldl (fun acc m => insertMember acc m.1 m.2) acc).map Prod.fst).Nodup ∧
      wfJsonM (ms.foldl (fun acc m => insertMember acc m.1 m.2) acc) = true := by
  induction ms with
  | nil =>
    intro acc h1 h2 _
    exact ⟨h1, h2⟩
  | cons m ms ih =>
    intro acc h1 h2 h3
    simp only [List.foldl_cons]
    have hm := (wfJsonM_iff (m :: ms)).mp h3
    exact ih (insertMember acc m.1 m.2)
      (insertMember_keys_nodup acc m.1 m.2 h1)
      (insertMember_wfM acc m.1 m.2 h2 (hm m (by simp)))
      ((wfJsonM_iff ms).mpr (fun x hx => hm x (by simp [hx])))

theorem collapseMembers_nodup (raw : List (String × Json)) :
    ((collapseMembers raw).map Prod.fst).Nodup ∧
    (wfJsonM raw = true → wfJsonM (collapseMembers raw) = true) := by
  constructor
  · by_cases hw : wfJsonM raw = true
    · exact (collapseMembers_aux raw [] (by simp) (by simp [wfJsonM]) hw).1
    · -- nodup holds regardless of member well-formedness: redo aux without wf
      suffices haux : ∀ (ms : List (String × Json)) acc, (acc.map Prod.fst).Nodup →
          ((ms.foldl (fun acc m => insertMember acc m.1 m.2) acc).map Prod.fst).Nodup by
        exact haux raw [] (by simp)
      intro ms
      induction ms with
      | nil => intro acc h; exact h
      | cons m ms ih =>
        intro acc h
        simp only [List.foldl_cons]
        exact ih _ (insertMember_keys_nodup acc m.1 m.2 h)
  · intro hw
    exact (collapseMembers_aux raw [] (by simp) (by simp [wfJsonM]) hw).2

/-- Every tree the parser produces is well-formed: object keys are distinct
    at every level (a consequence of the duplicate-collapsing member fold). -/
theorem parse_wf : ∀ fuel : Nat,
    (∀ cs j r, parseVal fuel cs = some (j, r) → wfJson j = true) ∧
    (∀ cs l r, parseElems fuel cs = some (l, r) → wfJsonL l = true) ∧
    (∀ cs l r, parseMembers fuel cs = some (l, r) → wfJsonM l = true) := by
  intro fuel
  induction fuel with
  | zero =>
    refine ⟨?_, ?_, ?_⟩ <;> (intro cs j r h; exact Option.noConfusion h)
  | succ fuel ih =>
    obtain ⟨ihv, ihe, ihm⟩ := ih
    refine ⟨?_, ?_, ?_⟩
    · intro cs j r h
      rw [parseVal] at h
      split at h
      · exact absurd h (by simp)
      · rename_i c rest
        split_ifs at h with h1 h2 h3 h4 h5 h6
        · -- object
          split at h
          · exact absurd h (by simp)
          · split_ifs at h with h7
            · simp only [Option.some.injEq, Prod.mk.injEq] at h
              rw [← h.1]
              decide
            · simp only [Option.map_eq_some'] at h
              obtain ⟨p, hp, hmap⟩ := h
              have hwfm := ihm _ p.1 p.2 (by rw [hp])
              have hcl := collapseMembers_nodup p.1
              cases hmap
              simp only [wfJson]
              rw [hcl.2 hwfm]
              simp [hcl.1]
        · -- array
          split at h
          · exact absurd h (by simp)
          · split_ifs at h with h7
            · simp only [Option.some.injEq, Prod.mk.injEq] at h
              rw [← h.1]
              decide
            · simp only [Option.map_eq_some'] at h
              obtain ⟨p, hp, hmap⟩ := h
              have hwfl := ihe _ p.1 p.2 (by rw [hp])
              cases hmap
              simpa [wfJson] using hwfl
        · -- string
          simp only [Option.map_eq_some'] at h
          obtain ⟨p, _, hmap⟩ := h
          cases hmap
          rfl
        · -- true
          split at h
          · simp only [Option.some.injEq, Prod.mk.injEq] at h
            rw [← h.1]
            decide
          · exact absurd h (by simp)
        · -- false
          split at h
          · simp only [Option.some.injEq, Prod.mk.injEq] at h
            rw [← h.1]
            decide
          · exact absurd h (by simp)
        · -- null
          split at h
          · simp only [Option.some.injEq, Prod.mk.injEq] at h
            rw [← h.1]
            decide
          · exact absurd h (by simp)
        · -- number
          simp only [Option.map_eq_some'] at h
          obtain ⟨p, _, hmap⟩ := h
          cases hmap
          rfl
    · intro cs l r h
      rw [parseElems] at h
      split at h
      · exact absurd h (by simp)
      · rename_i v r1 hpv
        have hwfv := ihv _ v r1 hpv
        split at h
        · simp only [Option.map_eq_some'] at h
          obtain ⟨p, hp, hmap⟩ := h
          have hwfl := ihe _ p.1 p.2 (by rw [hp])
          cases hmap
          simp [wfJsonL, hwfv, hwfl]
        · simp only [Option.some.injEq, Prod.mk.injEq] at h
          rw [← h.1]
          simp [wfJsonL, wfJsonL, hwfv]
        · exact absurd h (by simp)
    · intro cs l r h
      rw [parseMembers] at h
      split at h
      · rename_i r0
        split at h
        · exact absurd h (by simp)
        · rename_i k r1
          split at h
          · rename_i r2
            split at h
            · exact absurd h (by simp)
            · rename_i v r3 hpv
              have hwfv := ihv _ v r3 hpv
              split at h
              · simp only [Option.map_eq_some'] at h
                obtain ⟨p, hp, hmap⟩ := h
                have hwfm := ihm _ p.1 p.2 (by rw [hp])
                cases hmap
                simp [wfJsonM, hwfv, hwfm]
              · simp only [Option.some.injEq, Prod.mk.injEq] at h
                rw [← h.1]
                simp [wfJsonM, wfJsonM, hwfv]
              · exact absurd h (by simp)
          · exact absurd h (by simp)
      · exact absurd h (by simp)

theorem indentChars_length (n : Nat) : (indentChars n).length = n := by
  simp [indentChars]

theorem quoteStr_length (s : String) :
    (quoteStr s).length = (s.data.flatMap escJsonChar).length + 2 := by
  simp [quoteStr]

theorem printJson_length_pos (ind : Nat) (t : Json) : 0 < (printJson ind t).length := by
  obtain ⟨c, cs, heq, -⟩ := printJson_head_spec ind t
  rw [heq]
  simp

theorem elemsTail_cons_length (ind : Nat) (e2 : Json) (es : List Json) :
    (elemsTail ind (e2 :: es)).length =
      (printJson (ind + 2) e2).length + (elemsTail ind es).length + ind + 4 := by
  simp [elemsTail, indentChars_length]
  omega

theorem membsTail_cons_length (ind : Nat) (m2 : String × Json) (ms : List (String × Json)) :
    (membsTail ind (m2 :: ms)).length =
      (quoteStr m2.1).length + (printJson (ind + 2) m2.2).length +
        (membsTail ind ms).length + ind + 6 := by
  simp [membsTail, indentChars_length]
  omega

theorem printJson_arr_cons_length (ind : Nat) (e : Json) (es : List Json) :
    (printJson ind (Json.arr (e :: es))).length =
      (printJson (ind + 2) e).length + (elemsTail ind es).length + 2 * ind + 6 := by
  rw [printJson, printElems_eq]
  simp [indentChars_length]
  omega

theorem printJson_obj_cons_length (ind : Nat) (m : String × Json)
    (ms : List (String × Json)) :
    (printJson ind (Json.obj (m :: ms))).length =
      (quoteStr m.1).length + (printJson (ind + 2) m.2).length +
        (membsTail ind ms).length + 2 * ind + 8 := by
  rw [printJson, printMembs_eq]
  simp [indentChars_length, quoteStr_length]
  omega

theorem parseVal_digit (fuel : Nat) (d : Char) (l : List Char) (hd : decDigit d = true) :
    parseVal (fuel + 1) (d :: l) =
      (parseNumber (d :: l)).map (fun p => (Json.num p.1, p.2)) := by
  have ht := decDigit_toNat hd
  rw [parseVal]
  rw [skipWs_cons_not_ws _ (jsonWs_of_jsWs_false (jsWs_of_digit hd))]
  split
  · rename_i heq
    exact absurd heq (by simp)
  · rename_i c rest heq
    injection heq with h1 h2
    subst h1
    subst h2
    rw [if_neg (by intro he; subst he; revert ht; decide),
      if_neg (by intro he; subst he; revert ht; decide),
      if_neg (by intro he; subst he; revert ht; decide),
      if_neg (by intro he; subst he; revert ht; decide),
      if_neg (by intro he; subst he; revert ht; decide),
      if_neg (by intro he; subst he; revert ht; decide),
      if_pos (by simp [hd])]

theorem skipWs_pre_head (pre : List Char) {c : Char} (cs : List Char)
    (hpre : ∀ x ∈ pre, jsonWs x = true) (hc : jsonWs c = false) :
    skipWs (pre ++ c :: cs) = c :: cs := by
  rw [skipWs_append_of_ws pre _ hpre, skipWs_cons_not_ws _ hc]

theorem parseVal_quote (fuel : Nat) (l : List Char) :
    parseVal (fuel + 1) (('"') :: l) =
      (parseStrBody [] l).map (fun p => (Json.str p.1, p.2)) := by
  rw [parseVal, skipWs_cons_not_ws _ (by decide)]
  split
  · rename_i heq
    exact absurd heq (by simp)
  · rename_i c rest heq
    injection heq with h1 h2
    subst h1
    subst h2
    rw [if_neg (by decide), if_neg (by decide), if_pos rfl]

theorem parseVal_lbrack (fuel : Nat) (l : List Char) :
    parseVal (fuel + 1) (('[') :: l) =
      (match skipWs l with
       | [] => none
       | c2 :: r2 =>
         if c2 = (']') then some (.arr [], r2)
         else (parseElems fuel (c2 :: r2)).map (fun p => (.arr p.1, p.2))) := by
  rw [parseVal, skipWs_cons_not_ws _ (by decide)]
  split
  · rename_i heq
    exact absurd heq (by simp)
  · rename_i c rest heq
    injection heq with h1 h2
    subst h1
    subst h2
    rw [if_neg (by decide), if_pos rfl]

theorem parseVal_lbrace (fuel : Nat) (l : List Char) :
    parseVal (fuel + 1) (('\x7b') :: l) =
      (match skipWs l with
       | [] => none
       | c2 :: r2 =>
         if c2 = ('\x7d') then some (.obj [], r2)
         else (parseMembers fuel (c2 :: r2)).map
           (fun p => (.obj (collapseMembers p.1), p.2))) := by
  rw [parseVal, skipWs_cons_not_ws _ (by decide)]
  split
  · rename_i heq
    exact absurd heq (by simp)
  · rename_i c rest heq
    injection heq with h1 h2
    subst h1
    subst h2
    rw [if_pos rfl]

theorem parseVal_dash (fuel : Nat) (l : List Char) :
    parseVal (fuel + 1) (('-') :: l) =
      (parseNumber (('-') :: l)).map (fun p => (Json.num p.1, p.2)) := by
  rw [parseVal, skipWs_cons_not_ws _ (by decide)]
  split
  · rename_i heq
    exact absurd heq (by simp)
  · rename_i c rest heq
    injection heq with h1 h2
    subst h1
    subst h2
    rw [if_neg (by decide), if_neg (by decide), if_neg (by decide), if_neg (by decide),
      if_neg (by decide), if_neg (by decide), if_pos (by decide)]

/-- `parseVal` ignores leading whitespace. -/
theorem parseVal_ws_pre (fuel : Nat) (pre l : List Char)
    (hpre : ∀ x ∈ pre, jsonWs x = true) :
    parseVal (fuel + 1) (pre ++ l) = parseVal (fuel + 1) l := by
  rw [parseVal, parseVal, skipWs_append_of_ws pre l hpre]

theorem parse_print_roundtrip : ∀ fuel : Nat,
    (∀ (ind : Nat) (t : Json) (pre rest : List Char),
      (∀ c ∈ pre, jsonWs c = true) → wfJson t = true → headNotDigit rest = true →
      pre.length + (printJson ind t).length < fuel →
      parseVal fuel (pre ++ printJson ind t ++ rest) = some (t, rest)) ∧
    (∀ (ind : Nat) (e : Json) (es : List Json) (pre rest : List Char),
      (∀ c ∈ pre, jsonWs c = true) → wfJson e = true → wfJsonL es = true →
      pre.length + (printJson (ind + 2) e).length + (elemsTail ind es).length + ind + 2 < fuel →
      parseElems fuel (pre ++ printJson (ind + 2) e ++ elemsTail ind es ++
        ('\n') :: (indentChars ind ++ (']') :: rest)) = some (e :: es, rest)) ∧
    (∀ (ind : Nat) (k : String) (v : Json) (ms : List (String × Json)) (pre rest : List Char),
      (∀ c ∈ pre, jsonWs c = true) → wfJson v = true → wfJsonM ms = true →
      pre.length + (quoteStr k).length + (printJson (ind + 2) v).length +
        (membsTail ind ms).length + ind + 4 < fuel →
      parseMembers fuel (pre ++ quoteStr k ++ (':') :: (' ') :: printJson (ind + 2) v ++
        membsTail ind ms ++ ('\n') :: (indentChars ind ++ ('\x7d') :: rest)) =
        some ((k, v) :: ms, rest)) := by
  intro fuel
  induction fuel with
  | zero =>
    refine ⟨?_, ?_, ?_⟩ <;> (intro ind t pre rest h1 h2 h3 hb; omega)
  | succ fuel ih =>
    obtain ⟨ihv, ihe, ihm⟩ := ih
    refine ⟨?_, ?_, ?_⟩
    · intro ind t pre rest hpre hwf hrd hb
      cases t with
      | null =>
        rw [printJson]
        rw [show pre ++ ['n', 'u', 'l', 'l'] ++ rest =
          pre ++ ('n') :: (['u', 'l', 'l'] ++ rest) from by simp]
        rw [parseVal, skipWs_pre_head pre _ hpre (by decide)]
        simp
      | bool b =>
        cases b with
        | true =>
          rw [printJson]
          rw [show pre ++ (('t') :: ['r', 'u', 'e']) ++ rest =
            pre ++ ('t') :: (['r', 'u', 'e'] ++ rest) from by simp]
          rw [parseVal, skipWs_pre_head pre _ hpre (by decide)]
          simp
        | false =>
          rw [printJson]
          rw [show pre ++ ['f', 'a', 'l', 's', 'e'] ++ rest =
            pre ++ ('f') :: (['a', 'l', 's', 'e'] ++ rest) from by simp]
          rw [parseVal, skipWs_pre_head pre _ hpre (by decide)]
          simp
      | num i =>
        rw [printJson]
        by_cases hneg : i < 0
        · rw [show intChars i = ('-') :: natChars i.natAbs from by
            unfold intChars; rw [if_pos hneg]]
          rw [show pre ++ (('-') :: natChars i.natAbs) ++ rest =
            pre ++ ('-') :: (natChars i.natAbs ++ rest) from by simp]
          rw [parseVal_ws_pre fuel pre _ hpre, parseVal_dash]
          rw [show ('-') :: (natChars i.natAbs ++ rest) = intChars i ++ rest from by
            unfold intChars; rw [if_pos hneg]; simp]
          rw [parseNumber_intChars i rest hrd]
          simp
        · rw [show intChars i = natChars i.natAbs from by
            unfold intChars; rw [if_neg hneg]]
          rcases hnc : natChars i.natAbs with _ | ⟨d, ds⟩
          · exact absurd hnc (natChars_ne_nil _)
          · have hd := natChars_all_digits _ d (by rw [hnc]; simp)
            rw [show pre ++ (d :: ds) ++ rest = pre ++ d :: (ds ++ rest) from by simp]
            rw [parseVal_ws_pre fuel pre _ hpre, parseVal_digit fuel d _ hd]
            rw [show d :: (ds ++ rest) = intChars i ++ rest from by
              unfold intChars; rw [if_neg hneg, hnc]; simp]
            rw [parseNumber_intChars i rest hrd]
            simp
      | str s =>
        rw [printJson]
        unfold quoteStr
        rw [show pre ++ (('"') :: (s.data.flatMap escJsonChar ++ [('"')])) ++ rest =
          pre ++ ('"') :: (s.data.flatMap escJsonChar ++ ('"') :: rest) from by simp]
        rw [parseVal_ws_pre fuel pre _ hpre, parseVal_quote]
        rw [parseStrBody_roundtrip]
        simp
      | arr es =>
        cases es with
        | nil =>
          rw [printJson]
          rw [show pre ++ [('['), (']')] ++ rest =
            pre ++ ('[') :: ((']') :: rest) from by simp]
          rw [parseVal_ws_pre fuel pre _ hpre, parseVal_lbrack]
          rw [skipWs_cons_not_ws _ (by decide)]
          simp
        | cons e es =>
          have hwfl0 := (wfJsonL_iff (e :: es)).mp (by
            have : wfJson (Json.arr (e :: es)) = wfJsonL (e :: es) := rfl
            rw [← this]; exact hwf)
          have hwfe : wfJson e = true := hwfl0 e (by simp)
          have hwfes : wfJsonL es = true :=
            (wfJsonL_iff es).mpr (fun x hx => hwfl0 x (by simp [hx]))
          obtain ⟨c, cs0, heq, hcws, hcnb, hcnbr, hcnc⟩ := printJson_head_spec (ind + 2) e
          rw [printJson, printElems_eq]
          rw [show pre ++ (('[') :: ('\n') ::
              ((indentChars (ind + 2) ++ printJson (ind + 2) e ++ elemsTail ind es) ++
                ('\n') :: (indentChars ind ++ [(']')]))) ++ rest =
            pre ++ ('[') :: ((('\n') :: indentChars (ind + 2)) ++
              (printJson (ind + 2) e ++ (elemsTail ind es ++
                ('\n') :: (indentChars ind ++ (']') :: rest)))) from by simp]
          rw [parseVal_ws_pre fuel pre _ hpre, parseVal_lbrack]
          rw [heq]
          rw [show (('\n') :: indentChars (ind + 2)) ++ ((c :: cs0) ++ (elemsTail ind es ++
              ('\n') :: (indentChars ind ++ (']') :: rest))) =
            (('\n') :: indentChars (ind + 2)) ++ c :: (cs0 ++ (elemsTail ind es ++
              ('\n') :: (indentChars ind ++ (']') :: rest))) from by simp]
          rw [skipWs_pre_head _ _ (by
            intro x hx
            rcases List.mem_cons.mp hx with h | h
            · subst h; decide
            · exact indentChars_ws _ x h) (jsonWs_of_jsWs_false hcws)]
          simp only []
          rw [if_neg hcnb]
          rw [show c :: (cs0 ++ (elemsTail ind es ++ ('\n') :: (indentChars ind ++
              (']') :: rest))) =
            printJson (ind + 2) e ++ elemsTail ind es ++
              ('\n') :: (indentChars ind ++ (']') :: rest) from by rw [heq]; simp]
          have he := ihe ind e es [] rest (by simp) hwfe hwfes (by
            have hlen := printJson_arr_cons_length ind e es
            simp only [List.length_nil]
            omega)
          simp only [List.nil_append] at he
          rw [he]
          simp
      | obj ms =>
        cases ms with
        | nil =>
          rw [printJson]
          rw [show pre ++ [('\x7b'), ('\x7d')] ++ rest =
            pre ++ ('\x7b') :: (('\x7d') :: rest) from by simp]
          rw [parseVal_ws_pre fuel pre _ hpre, parseVal_lbrace]
          rw [skipWs_cons_not_ws _ (by decide)]
          simp
        | cons m ms =>
          have hwf2 : (decide ((m :: ms).map Prod.fst).Nodup && wfJsonM (m :: ms)) = true := by
            have : wfJson (Json.obj (m :: ms)) =
                (decide ((m :: ms).map Prod.fst).Nodup && wfJsonM (m :: ms)) := rfl
            rw [← this]
            exact hwf
          rw [Bool.and_eq_true] at hwf2
          have hnd : ((m :: ms).map Prod.fst).Nodup := of_decide_eq_true hwf2.1
          have hwfm0 : wfJsonM (m :: ms) = true := hwf2.2
          have hwfv : wfJson m.2 = true := (wfJsonM_iff _).mp hwfm0 m (by simp)
          have hwfms : wfJsonM ms = true :=
            (wfJsonM_iff ms).mpr (fun x hx => (wfJsonM_iff _).mp hwfm0 x (by simp [hx]))
          rw [printJson, printMembs_eq]
          rw [show pre ++ (('\x7b') :: ('\n') ::
              ((indentChars (ind + 2) ++ (quoteStr m.1 ++ (':') :: (' ') ::
                printJson (ind + 2) m.2) ++ membsTail ind ms) ++
                ('\n') :: (indentChars ind ++ [('\x7d')]))) ++ rest =
            pre ++ ('\x7b') :: ((('\n') :: indentChars (ind + 2)) ++
              (quoteStr m.1 ++ (':') :: (' ') :: printJson (ind + 2) m.2 ++
                membsTail ind ms ++
                ('\n') :: (indentChars ind ++ ('\x7d') :: rest))) from by simp]
          rw [parseVal_ws_pre fuel pre _ hpre, parseVal_lbrace]
          rw [show quoteStr m.1 ++ (':') :: (' ') :: printJson (ind + 2) m.2 ++
              membsTail ind ms ++ ('\n') :: (indentChars ind ++ ('\x7d') :: rest) =
            ('"') :: (m.1.data.flatMap escJsonChar ++ ('"') ::
              ((':') :: (' ') :: printJson (ind + 2) m.2 ++ membsTail ind ms ++
                ('\n') :: (indentChars ind ++ ('\x7d') :: rest))) from by
            unfold quoteStr; simp]
          rw [skipWs_pre_head _ _ (by
            intro x hx
            rcases List.mem_cons.mp hx with h | h
            · subst h; decide
            · exact indentChars_ws _ x h) (by decide)]
          split
          · rename_i heq
            exact absurd heq (by simp)
          · rename_i c2 r2 heq
            injection heq with h1 h2
            subst h1
            subst h2
            rw [if_neg (by decide)]
            rw [show ('"') :: (m.1.data.flatMap escJsonChar ++ ('"') ::
              ((':') :: (' ') :: printJson (ind + 2) m.2 ++ membsTail ind ms ++
                ('\n') :: (indentChars ind ++ ('\x7d') :: rest))) =
            quoteStr m.1 ++ (':') :: (' ') :: printJson (ind + 2) m.2 ++
              membsTail ind ms ++ ('\n') :: (indentChars ind ++ ('\x7d') :: rest) from by
            unfold quoteStr; simp]
            have hm := ihm ind m.1 m.2 ms [] rest (by simp) hwfv hwfms (by
            have hlen := printJson_obj_cons_length ind m ms
            simp only [List.length_nil]
            omega)
            simp only [List.nil_append] at hm
            rw [hm]
            simp only [Option.map]
            rw [collapseMembers_self _ (by simpa using hnd)]
    · intro ind e es pre rest hpre hwfe hwfes hb
      rw [parseElems]
      have hrd2 : headNotDigit (elemsTail ind es ++
          ('\n') :: (indentChars ind ++ (']') :: rest)) = true := by
        cases es with
        | nil => rfl
        | cons e2 es2 => rfl
      have hv := ihv (ind + 2) e pre (elemsTail ind es ++
        ('\n') :: (indentChars ind ++ (']') :: rest)) hpre hwfe hrd2 (by omega)
      rw [show pre ++ printJson (ind + 2) e ++ elemsTail ind es ++
          ('\n') :: (indentChars ind ++ (']') :: rest) =
        pre ++ printJson (ind + 2) e ++ (elemsTail ind es ++
          ('\n') :: (indentChars ind ++ (']') :: rest)) from by simp]
      rw [hv]
      simp only []
      cases es with
      | nil =>
        rw [show elemsTail ind [] ++ ('\n') :: (indentChars ind ++ (']') :: rest) =
          (('\n') :: indentChars ind) ++ (']') :: rest from by simp [elemsTail]]
        rw [skipWs_pre_head _ _ (by
          intro x hx
          rcases List.mem_cons.mp hx with h | h
          · subst h; decide
          · exact indentChars_ws _ x h) (by decide)]
        split
        · rename_i r2 heq
          injection heq with h1 h2
          exact absurd h1 (by decide)
        · rename_i r2 heq
          injection heq with h1 h2
          subst h2
          rfl
        · rename_i h1 h2
          exact (h2 rest rfl).elim
      | cons e2 es2 =>
        have hwfe2 : wfJson e2 = true := (wfJsonL_iff _).mp hwfes e2 (by simp)
        have hwfes2 : wfJsonL es2 = true :=
          (wfJsonL_iff es2).mpr (fun x hx => (wfJsonL_iff _).mp hwfes x (by simp [hx]))
        rw [show elemsTail ind (e2 :: es2) ++ ('\n') :: (indentChars ind ++ (']') :: rest) =
          (',') :: ((('\n') :: indentChars (ind + 2)) ++ printJson (ind + 2) e2 ++
            elemsTail ind es2 ++ ('\n') :: (indentChars ind ++ (']') :: rest)) from by
          simp [elemsTail]]
        rw [skipWs_cons_not_ws _ (by decide)]
        split
        · rename_i r2 heq
          injection heq with h1 h2
          subst h2
          have he2 := ihe ind e2 es2 (('\n') :: indentChars (ind + 2)) rest (by
            intro x hx
            rcases List.mem_cons.mp hx with h | h
            · subst h; decide
            · exact indentChars_ws _ x h) hwfe2 hwfes2 (by
            have hlen := elemsTail_cons_length ind e2 es2
            have hpos := printJson_length_pos (ind + 2) e
            simp only [List.length_cons, indentChars_length]
            omega)
          rw [he2]
          simp
        · rename_i r2 heq
          injection heq with h1 h2
          exact absurd h1 (by decide)
        · rename_i h1 h2
          exact (h1 _ rfl).elim
    · intro ind k v ms pre rest hpre hwfv hwfms hb
      rw [parseMembers]
      rw [show pre ++ quoteStr k ++ (':') :: (' ') :: printJson (ind + 2) v ++
          membsTail ind ms ++ ('\n') :: (indentChars ind ++ ('\x7d') :: rest) =
        pre ++ ('"') :: (k.data.flatMap escJsonChar ++ ('"') ::
          ((':') :: (' ') :: (printJson (ind + 2) v ++ (membsTail ind ms ++
            ('\n') :: (indentChars ind ++ ('\x7d') :: rest))))) from by
        unfold quoteStr; simp]
      rw [skipWs_pre_head pre _ hpre (by decide)]
      split
      · rename_i r heq
        injection heq with h1 h2
        subst h2
        rw [parseStrBody_roundtrip]
        simp only []
        rw [skipWs_cons_not_ws _ (by decide)]
        split
        · rename_i r2 heq2
          injection heq2 with h3 h4
          subst h4
          have hrd2 : headNotDigit (membsTail ind ms ++
              ('\n') :: (indentChars ind ++ ('\x7d') :: rest)) = true := by
            cases ms with
            | nil => rfl
            | cons m2 ms2 => rfl
          have hv := ihv (ind + 2) v [(' ')] (membsTail ind ms ++
            ('\n') :: (indentChars ind ++ ('\x7d') :: rest)) (by
              intro x hx
              rcases List.mem_cons.mp hx with h | h
              · subst h; decide
              · exact absurd h (by simp)) hwfv hrd2 (by
            have hq := quoteStr_length k
            simp only [List.length_cons, List.length_nil]
            omega)
          rw [show (' ') :: (printJson (ind + 2) v ++ (membsTail ind ms ++
              ('\n') :: (indentChars ind ++ ('\x7d') :: rest))) =
            [(' ')] ++ printJson (ind + 2) v ++ (membsTail ind ms ++
              ('\n') :: (indentChars ind ++ ('\x7d') :: rest)) from by simp]
          rw [hv]
          simp only []
          cases ms with
          | nil =>
            rw [show membsTail ind [] ++ ('\n') :: (indentChars ind ++ ('\x7d') :: rest) =
              (('\n') :: indentChars ind) ++ ('\x7d') :: rest from by simp [membsTail]]
            rw [skipWs_pre_head _ _ (by
              intro x hx
              rcases List.mem_cons.mp hx with h | h
              · subst h; decide
              · exact indentChars_ws _ x h) (by decide)]
            split
            · rename_i r4 heq4
              injection heq4 with h5 h6
              exact absurd h5 (by decide)
            · rename_i r4 heq4
              injection heq4 with h5 h6
              subst h6
              simp
            · rename_i h5 h6
              exact (h6 rest rfl).elim
          | cons m2 ms2 =>
            have hwfv2 : wfJson m2.2 = true := (wfJsonM_iff _).mp hwfms m2 (by simp)
            have hwfms2 : wfJsonM ms2 = true :=
              (wfJsonM_iff ms2).mpr (fun x hx => (wfJsonM_iff _).mp hwfms x (by simp [hx]))
            rw [show membsTail ind (m2 :: ms2) ++ ('\n') :: (indentChars ind ++
                ('\x7d') :: rest) =
              (',') :: ((('\n') :: indentChars (ind + 2)) ++ quoteStr m2.1 ++
                (':') :: (' ') :: printJson (ind + 2) m2.2 ++ membsTail ind ms2 ++
                ('\n') :: (indentChars ind ++ ('\x7d') :: rest)) from by
              simp [membsTail]]
            rw [skipWs_cons_not_ws _ (by decide)]
            split
            · rename_i r4 heq4
              injection heq4 with h5 h6
              subst h6
              have hm2 := ihm ind m2.1 m2.2 ms2 (('\n') :: indentChars (ind + 2)) rest (by
                intro x hx
                rcases List.mem_cons.mp hx with h | h
                · subst h; decide
                · exact indentChars_ws _ x h) hwfv2 hwfms2 (by
                have hlen := membsTail_cons_length ind m2 ms2
                have hpos := printJson_length_pos (ind + 2) v
                have hq := quoteStr_length k
                simp only [List.length_cons, indentChars_length]
                omega)
              rw [hm2]
              simp
            · rename_i r4 heq4
              injection heq4 with h5 h6
              exact absurd h5 (by decide)
            · rename_i h5 h6
              exact (h5 _ rfl).elim
        · rename_i h3
          exact (h3 _ rfl).elim
      · rename_i h1
        exact (h1 _ rfl).elim

/-- `JSON.parse` inverts `JSON.stringify(·, null, 2)` on well-formed trees. -/
theorem jsonParse_printJson (t : Json) (h : wfJson t = true) :
    jsonParse (⟨printJson 0 t⟩ : String) = some t := by
  unfold jsonParse
  have hv := (parse_print_roundtrip ((printJson 0 t).length + 1)).1 0 t [] []
    (by simp) h (by rfl) (by simp)
  simp only [List.nil_append, List.append_nil] at hv
  have hdata : ((⟨printJson 0 t⟩ : String)).data = printJson 0 t := rfl
  rw [hdata, hv]
  rfl

instance : IsTotal String keyLe :=
  ⟨fun a b => strLexLe_total a.data b.data⟩

instance : IsTrans String keyLe :=
  ⟨fun a b c h1 h2 => strLexLe_trans _ _ _ h1 h2⟩

theorem jsGet_obj_map_keys (g : String → Json) :
    ∀ (ks : List String) (k : String), k ∈ ks →
      jsGet (Json.obj (ks.map (fun x => (x, g x)))) k = some (g k) := by
  intro ks
  induction ks with
  | nil =>
    intro k hk
    cases hk
  | cons x xs ih =>
    intro k hk
    by_cases hx : x = k
    · subst hx
      simp [jsGet, List.find?_cons]
    · have hih := ih k (by
        rcases List.mem_cons.mp hk with h | h
        · exact absurd h.symm hx
        · exact h)
      simp only [jsGet] at hih
      simp [jsGet, List.find?_cons, hx]
      have hfm : List.find? (fun m => m.1 == k) (List.map (fun x => (x, g x)) xs) =
          Option.map (fun x => (x, g x))
            (List.find? ((fun m => m.1 == k) ∘ fun x => (x, g x)) xs) :=
        List.find?_map _ _
      rw [hfm] at hih
      rcases hf : List.find? ((fun m => m.1 == k) ∘ fun x => (x, g x)) xs with _ | a
      · rw [hf] at hih
        simp at hih
      · rw [hf] at hih
        simp at hih
        exact ⟨a, hf, hih⟩

theorem normalizeJsonObject_idem_aux : ∀ (n : Nat) (j : Json), jsonSize j ≤ n →
    normalizeJsonObject (normalizeJsonObject j) = normalizeJsonObject j := by
  intro n
  induction n with
  | zero =>
    intro j h
    have := jsonSize_pos j
    omega
  | succ n ih =>
    intro j hsz
    cases j with
    | null => rfl
    | bool b => rfl
    | num i => rfl
    | str s => rfl
    | arr es =>
      have hszL : jsonSize (Json.arr es) = 1 + jsonSizeL es := rfl
      have hmem : ∀ x ∈ es.map normalizeJsonObject, normalizeJsonObject x = x := by
        intro x hx
        obtain ⟨e, he, hex⟩ := List.mem_map.mp hx
        rw [← hex]
        exact ih e (by have := jsonSizeL_mem he; omega)
      rw [normalizeJsonObject_arr]
      cases hm : es.map normalizeJsonObject with
      | nil =>
        simp only []
        rfl
      | cons f rest =>
        rw [hm] at hmem
        by_cases hg : (isJsObject f &&
            (jsHasKey f ("id") || jsHasKey f ("name") || jsHasKey f ("key"))) = true
        · simp only [hg, if_true]
          have hperm : (List.insertionSort sortKeyLe (f :: rest)).Perm (f :: rest) :=
            List.perm_insertionSort _ _
          have hsorted : List.Sorted sortKeyLe (List.insertionSort sortKeyLe (f :: rest)) :=
            List.sorted_insertionSort _ _
          cases hl : List.insertionSort sortKeyLe (f :: rest) with
          | nil =>
            rw [hl] at hperm
            exact absurd hperm.symm.eq_nil (by simp)
          | cons f2 rest2 =>
            rw [normalizeJsonObject_arr]
            have hmm : ∀ x ∈ f2 :: rest2, normalizeJsonObject x = x := by
              intro x hx
              apply hmem
              apply hperm.subset
              rw [hl]
              exact hx
            have hmap : (f2 :: rest2).map normalizeJsonObject = f2 :: rest2 := by
              have h1 : (f2 :: rest2).map normalizeJsonObject = (f2 :: rest2).map id :=
                List.map_congr_left hmm
              simpa using h1
            rw [hmap]
            simp only []
            by_cases hg2 : (isJsObject f2 &&
                (jsHasKey f2 ("id") || jsHasKey f2 ("name") || jsHasKey f2 ("key"))) = true
            · simp only [hg2, if_true]
              rw [show List.insertionSort sortKeyLe (f2 :: rest2) = f2 :: rest2 from
                List.Sorted.insertionSort_eq (hl ▸ hsorted)]
            · simp [hg2]
        · simp only []
          rw [if_neg hg]
          rw [normalizeJsonObject_arr]
          have hmap : (f :: rest).map normalizeJsonObject = f :: rest := by
            have h1 : (f :: rest).map normalizeJsonObject = (f :: rest).map id :=
              List.map_congr_left hmem
            simpa using h1
          rw [hmap]
          simp only []
          rw [if_neg hg]
    | obj ms =>
      have hszM : jsonSize (Json.obj ms) = 1 + jsonSizeM ms := rfl
      rw [normalizeJsonObject_obj]
      rw [normalizeJsonObject_obj]
      congr 1
      have hlam : ∀ kk : String,
          (match jsGet (Json.obj ms) kk with
           | some v => (kk, normalizeJsonObject v)
           | none => (kk, Json.null)) =
          (kk, match jsGet (Json.obj ms) kk with
               | some v => normalizeJsonObject v
               | none => Json.null) := by
        intro kk
        cases jsGet (Json.obj ms) kk <;> rfl
      have hfst : ((List.insertionSort keyLe (ms.map Prod.fst)).map
          (fun kk =>
            match jsGet (Json.obj ms) kk with
            | some v => (kk, normalizeJsonObject v)
            | none => (kk, Json.null))).map Prod.fst =
          List.insertionSort keyLe (ms.map Prod.fst) := by
        rw [List.map_map]
        have h1 : (List.insertionSort keyLe (ms.map Prod.fst)).map
            (Prod.fst ∘ fun kk =>
              match jsGet (Json.obj ms) kk with
              | some v => (kk, normalizeJsonObject v)
              | none => (kk, Json.null)) =
            (List.insertionSort keyLe (ms.map Prod.fst)).map id := by
          apply List.map_congr_left
          intro kk _
          simp only [Function.comp]
          rw [hlam kk]
          rfl
        simpa using h1
      rw [hfst]
      have hsorted : List.Sorted keyLe (List.insertionSort keyLe (ms.map Prod.fst)) :=
        List.sorted_insertionSort _ _
      rw [List.Sorted.insertionSort_eq hsorted]
      have hLg : (List.insertionSort keyLe (ms.map Prod.fst)).map
          (fun kk =>
            match jsGet (Json.obj ms) kk with
            | some v => (kk, normalizeJsonObject v)
            | none => (kk, Json.null)) =
          (List.insertionSort keyLe (ms.map Prod.fst)).map
            (fun kk => (kk,
              match jsGet (Json.obj ms) kk with
              | some v => normalizeJsonObject v
              | none => Json.null)) :=
        List.map_congr_left (fun kk _ => hlam kk)
      rw [hLg]
      apply List.map_congr_left
      intro x hx
      rw [jsGet_obj_map_keys
        (fun kk =>
          match jsGet (Json.obj ms) kk with
          | some v => normalizeJsonObject v
          | none => Json.null)
        (List.insertionSort keyLe (ms.map Prod.fst)) x hx]
      simp only []
      rcases hv : jsGet (Json.obj ms) x with _ | v
      · simp only [hv]
        rfl
      · simp only [hv]
        rw [ih v (by have := jsonSize_jsGet hv; omega)]

/-- Canonicalization of a tree is idempotent. -/
theorem normalizeJsonObject_idem (j : Json) :
    normalizeJsonObject (normalizeJsonObject j) = normalizeJsonObject j :=
  normalizeJsonObject_idem_aux (jsonSize j) j (le_refl _)

theorem wfJson_normalizeJsonObject_aux : ∀ (n : Nat) (j : Json), jsonSize j ≤ n →
    wfJson j = true → wfJson (normalizeJsonObject j) = true := by
  intro n
  induction n with
  | zero =>
    intro j h
    have := jsonSize_pos j
    omega
  | succ n ih =>
    intro j hsz hwf
    cases j with
    | null => exact hwf
    | bool b => exact hwf
    | num i => exact hwf
    | str s => exact hwf
    | arr es =>
      have hszL : jsonSize (Json.arr es) = 1 + jsonSizeL es := rfl
      have hwfl := (wfJsonL_iff es).mp (by
        have : wfJson (Json.arr es) = wfJsonL es := rfl
        rw [← this]
        exact hwf)
      have hmem : ∀ x ∈ es.map normalizeJsonObject, wfJson x = true := by
        intro x hx
        obtain ⟨e, he, hex⟩ := List.mem_map.mp hx
        rw [← hex]
        exact ih e (by have := jsonSizeL_mem he; omega) (hwfl e he)
      rw [normalizeJsonObject_arr]
      cases hm : es.map normalizeJsonObject with
      | nil => decide
      | cons f rest =>
        rw [hm] at hmem
        by_cases hg : (isJsObject f &&
            (jsHasKey f ("id") || jsHasKey f ("name") || jsHasKey f ("key"))) = true
        · simp only [hg, if_true]
          have : wfJson (Json.arr (List.insertionSort sortKeyLe (f :: rest))) =
              wfJsonL (List.insertionSort sortKeyLe (f :: rest)) := rfl
          rw [this, wfJsonL_iff]
          intro x hx
          exact hmem x ((List.perm_insertionSort sortKeyLe (f :: rest)).subset hx)
        · simp only []
          rw [if_neg hg]
          have : wfJson (Json.arr (f :: rest)) = wfJsonL (f :: rest) := rfl
          rw [this, wfJsonL_iff]
          exact hmem
    | obj ms =>
      have hszM : jsonSize (Json.obj ms) = 1 + jsonSizeM ms := rfl
      have hwf2 : (decide ((ms.map Prod.fst)).Nodup && wfJsonM ms) = true := by
        have : wfJson (Json.obj ms) = (decide ((ms.map Prod.fst)).Nodup && wfJsonM ms) := rfl
        rw [← this]
        exact hwf
      rw [Bool.and_eq_true] at hwf2
      have hnd : (ms.map Prod.fst).Nodup := of_decide_eq_true hwf2.1
      rw [normalizeJsonObject_obj]
      have hkeys : ((List.insertionSort keyLe (ms.map Prod.fst)).map
          (fun k =>
            match jsGet (Json.obj ms) k with
            | some v => (k, normalizeJsonObject v)
            | none => (k, Json.null))).map Prod.fst =
          List.insertionSort keyLe (ms.map Prod.fst) := by
        rw [List.map_map]
        have h1 : (List.insertionSort keyLe (ms.map Prod.fst)).map
            ((Prod.fst) ∘ fun k =>
              match jsGet (Json.obj ms) k with
              | some v => (k, normalizeJsonObject v)
              | none => (k, Json.null)) =
            (List.insertionSort keyLe (ms.map Prod.fst)).map id := by
          apply List.map_congr_left
          intro kk _
          simp only [Function.comp]
          rcases jsGet (Json.obj ms) kk with _ | v <;> rfl
        simpa using h1
      have hwfres : wfJson (Json.obj ((List.insertionSort keyLe (ms.map Prod.fst)).map
          (fun k =>
            match jsGet (Json.obj ms) k with
            | some v => (k, normalizeJsonObject v)
            | none => (k, Json.null)))) =
          (decide (((List.insertionSort keyLe (ms.map Prod.fst)).map
            (fun k =>
              match jsGet (Json.obj ms) k with
              | some v => (k, normalizeJsonObject v)
              | none => (k, Json.null))).map Prod.fst).Nodup &&
           wfJsonM ((List.insertionSort keyLe (ms.map Prod.fst)).map
            (fun k =>
              match jsGet (Json.obj ms) k with
              | some v => (k, normalizeJsonObject v)
              | none => (k, Json.null)))) := rfl
      rw [hwfres, Bool.and_eq_true]
      constructor
      · rw [hkeys]
        exact decide_eq_true
          (((List.perm_insertionSort keyLe (ms.map Prod.fst)).nodup_iff).mpr hnd)
      · rw [wfJsonM_iff]
        intro m hm
        obtain ⟨kk, hkk, hmk⟩ := List.mem_map.mp hm
        rcases hv : jsGet (Json.obj ms) kk with _ | v
        · rw [hv] at hmk
          rw [← hmk]
          rfl
        · rw [hv] at hmk
          rw [← hmk]
          have hs := jsonSize_jsGet hv
          have hwv : wfJson v = true := by
            simp only [jsGet] at hv
            obtain ⟨m0, hm0, hsnd⟩ := Option.map_eq_some'.mp hv
            have hmem0 : m0 ∈ ms := List.mem_of_find?_eq_some hm0
            rw [← hsnd]
            exact (wfJsonM_iff ms).mp hwf2.2 m0 hmem0
          exact ih v (by omega) hwv

theorem jsonParse_wf {s : String} {t : Json} (h : jsonParse s = some t) :
    wfJson t = true := by
  unfold jsonParse at h
  rcases hp : parseVal (s.data.length + 1) s.data with _ | p
  · rw [hp] at h
    exact absurd h (by simp)
  · rw [hp] at h
    obtain ⟨j0, r0⟩ := p
    simp only [] at h
    split_ifs at h with hw
    · have := (parse_wf (s.data.length + 1)).1 s.data j0 r0 (by rw [hp])
      have ht : j0 = t := by injection h
      rw [← ht]
      exact this

/-- C4: for every JSON-parseable string (directly or after markdown-fence
    extraction), canonicalization is idempotent: normalizing the normalized
    text returns it unchanged. -/
theorem normalizeJson_idempotent (s : String) (h : isValidJson s = true) :
    (normalizeJson ((normalizeJson s).normalized)).normalized =
      (normalizeJson s).normalized := by
  have key : ∀ t : Json, wfJson t = true →
      (normalizeJson (⟨printJson 0 (normalizeJsonObject t)⟩ : String)).normalized =
        (⟨printJson 0 (normalizeJsonObject t)⟩ : String) := by
    intro t hwf
    have hwfn : wfJson (normalizeJsonObject t) = true :=
      wfJson_normalizeJsonObject_aux (jsonSize t) t (le_refl _) hwf
    unfold normalizeJson
    rw [jsTrim_printJson (normalizeJsonObject t)]
    rw [jsonParse_printJson _ hwfn]
    simp only []
    rw [normalizeJsonObject_idem t]
  rcases h1 : jsonParse (jsTrim s) with _ | t
  · rcases h2 : jsonParse (extractJsonFromMarkdown s) with _ | t
    · unfold isValidJson at h
      rw [h1, h2] at h
      simp at h
    · have hwf : wfJson t = true := jsonParse_wf h2
      have hn : normalizeJson s =
          ⟨(⟨printJson 0 (normalizeJsonObject t)⟩ : String),
            some (normalizeJsonObject t), none⟩ := by
        unfold normalizeJson
        rw [h1, h2]
      rw [hn]
      exact key t hwf
  · have hwf := jsonParse_wf h1
    have hn : normalizeJson s =
        ⟨(⟨printJson 0 (normalizeJsonObject t)⟩ : String),
          some (normalizeJsonObject t), none⟩ := by
      unfold normalizeJson
      rw [h1]
    rw [hn]
    exact key t hwf

/-- C4 witness: idempotence at a concrete parseable input exercising
    nesting, array elements and unsorted object keys. -/
theorem normalizeJson_idempotent_witness :
    isValidJson ("[1, \x7b\"b\":2, \"a\":[3]\x7d]") = true ∧
    (normalizeJson ((normalizeJson ("[1, \x7b\"b\":2, \"a\":[3]\x7d]")).normalized)).normalized =
      (normalizeJson ("[1, \x7b\"b\":2, \"a\":[3]\x7d]")).normalized :=
  ⟨by decide, normalizeJson_idempotent ("[1, \x7b\"b\":2, \"a\":[3]\x7d]") (by decide)⟩
